import Mathlib

/-!
# Tooth reminder: time utilities, schedule deriver, notification and streak steps

Shallow embedding of `src/App.jsx`.

* JavaScript numbers are IEEE-754 doubles.  Every number the program handles is
  integer valued, so a number is modelled by the integer it denotes and every
  arithmetic result passes through `roundDouble`, the rounding of the exact
  result to the nearest double (exact below `2 ^ 53`).
* JavaScript strings are Lean strings; `"HH:MM"` strings are parsed as the source
  does, with `split(":")` followed by `Number`.
* React state updates `setPlan (p => ...)` are pure functions `Plan → Plan`.
-/

namespace ToothReminder

/-! ## Numbers -/

/-- Number of low bits an integer of magnitude `a` loses when it is stored in a
53 bit significand: `0` below `2 ^ 53`, otherwise one more than for `a / 2`.  The
first argument bounds the recursion and is always given as `a` itself. -/
def excessBits : Nat → Nat → Nat
  | 0, _ => 0
  | fuel + 1, a => if a < 2 ^ 53 then 0 else excessBits fuel (a / 2) + 1

/-- Rounding of an exact integer result to the nearest double: a 53 bit
significand, ties to the even significand.  Integers of magnitude below `2 ^ 53`
are kept.  Overflow to `Infinity` (magnitude `2 ^ 1024` and beyond) is not
modelled. -/
def roundDouble (x : Int) : Int :=
  let a := x.natAbs
  let e := excessBits a a
  if e = 0 then x
  else
    let q := a / 2 ^ e
    let r := a % 2 ^ e
    let half := 2 ^ (e - 1)
    let q' := if half < r ∨ (r = half ∧ q % 2 = 1) then q + 1 else q
    Int.sign x * ((q' * 2 ^ e : Nat) : Int)

/-- JavaScript `a + b` on integer valued numbers. -/
def jsAdd (a b : Int) : Int := roundDouble (a + b)

/-- JavaScript `a - b` on integer valued numbers. -/
def jsSub (a b : Int) : Int := roundDouble (a - b)

/-- JavaScript `a * b` on integer valued numbers whose product is a finite
double.  Where `roundsFinite (a * b)` fails JavaScript gives an infinity, which
this function does not model. -/
def jsMul (a b : Int) : Int := roundDouble (a * b)

/-- Whether the exact integer `x` rounds to a finite double: its magnitude is
below `2 ^ 1024 - 2 ^ 970 = (2 ^ 54 - 1) * 2 ^ 970`, the midpoint of the largest
double and `2 ^ 1024`.  The magnitude is compared after dropping its low 970
bits. -/
def roundsFinite (x : Int) : Bool := decide (x.natAbs >>> 970 < 2 ^ 54 - 1)

/-- JavaScript `a % b`: the remainder has the sign of the dividend and is exact. -/
def jsMod (a b : Int) : Int := Int.tmod a b

/-! ## Strings -/

/-- The ten decimal digit characters. -/
def digitChars : List Char := ['0', '1', '2', '3', '4', '5', '6', '7', '8', '9']

/-- Value of a decimal digit character. -/
def digitVal (c : Char) : Nat := digitChars.indexOf c

/-- `s.split(":")` on the characters of `s`. -/
def splitColon : List Char → List (List Char)
  | [] => [[]]
  | c :: cs =>
    if c = ':' then [] :: splitColon cs
    else
      match splitColon cs with
      | [] => [[c]]
      | p :: ps => (c :: p) :: ps

/-- `Number(s)` for the empty string and for plain decimal digit strings.  The
result `none` stands for every other string (JavaScript gives `NaN` there, or
reads a signed, fractional, hexadecimal or exponent literal); those inputs are
outside the model. -/
def Number (s : List Char) : Option Int :=
  if s.all (fun c => decide (c ∈ digitChars)) then
    some (roundDouble ((s.foldl (fun acc c => acc * 10 + digitVal c) 0 : Nat) : Int))
  else none

/-- `const [h, m] = hhmm.split(":").map(Number)`: the first two fields, as numbers.
The result is `none` when a field is missing (`m` is `undefined` for a string
without a colon, and every sum built from it is `NaN`) or is `none` under
`Number`. -/
def splitNumbers (hhmm : String) : Option (Int × Int) :=
  match (splitColon hhmm.data).map Number with
  | some h :: some m :: _ => some (h, m)
  | _ => none

/-- `String(n)` for an integer valued number of magnitude below `10 ^ 21`. -/
def jsString (n : Int) : List Char :=
  if n < 0 then '-' :: (Nat.repr n.natAbs).data else (Nat.repr n.natAbs).data

/-- `pad2 = (n) => String(n).padStart(2, "0")`. -/
def pad2 (n : Int) : String :=
  let s := jsString n
  String.mk (List.replicate (2 - s.length) '0' ++ s)

/-! ## Time utilities -/

/-- `minutesBetween(fromHHMM, toHHMM)`. -/
def minutesBetween (fromHHMM toHHMM : String) : Option Int := do
  let (fh, fm) ← splitNumbers fromHHMM
  let (th, tm) ← splitNumbers toHHMM
  let a := jsAdd (jsMul fh 60) fm
  let b := jsAdd (jsMul th 60) tm
  let diff := jsSub b a
  pure (if diff < 0 then jsAdd diff 1440 else diff)

/-- `addMinutes(hhmm, add)`.  `Math.floor(total / 60)` is applied to a `total`
in `[0, 1439]`, where the double quotient floors to the integer quotient. -/
def addMinutes (hhmm : String) (add : Int) : Option String := do
  let (h, m) ← splitNumbers hhmm
  let total := jsAdd (jsAdd (jsMul h 60) m) add
  let total := jsMod (jsAdd (jsMod total 1440) 1440) 1440
  pure (pad2 (total / 60) ++ ":" ++ pad2 (jsMod total 60))

/-- A well-formed 24-hour `"HH:MM"` string: two digits, a colon, two digits,
hours at most 23 and minutes at most 59. -/
def validHHMM (s : String) : Bool :=
  match s.data with
  | [a, b, c, d, e] =>
    decide (a ∈ digitChars) && decide (b ∈ digitChars) && decide (c = ':') &&
    decide (d ∈ digitChars) && decide (e ∈ digitChars) &&
    decide (digitVal a * 10 + digitVal b < 24) && decide (digitVal d * 10 + digitVal e < 60)
  | _ => false

/-- Minute of the day `60 * h + m` denoted by an `"HH:MM"` string. -/
def minuteOfDay (s : String) : Option Int :=
  (splitNumbers s).map (fun hm => 60 * hm.1 + hm.2)

/-- The `"HH:MM"` string that `addMinutes` prints for a minute of the day. -/
def hhmmOfMinute (t : Int) : String :=
  pad2 (t / 60) ++ ":" ++ pad2 (jsMod t 60)

/-! ## Plan store -/

/-- What the program reads of a stored `lastTaken` timestamp: `getHours()` and
`getMinutes()` of `new Date(lastTaken)`, in local time. -/
structure LocalTime where
  hours : Int
  minutes : Int
deriving DecidableEq, Repr

/-- An interval medication, `plan.paracetamol` or `plan.ibuprofen`; `lastTaken`
is `none` for `null`. -/
structure Medication where
  enabled : Bool
  everyHours : Int
  start : String
  lastTaken : Option LocalTime
deriving DecidableEq, Repr

/-- A fixed-time task, `plan.rinse` or `plan.corsodyl`.  The `done` object maps a
key to its stored value, `none` for an absent key; `done` itself may be missing. -/
structure TimedTask where
  enabled : Bool
  times : List String
  done : Option (String → Option Bool)

/-- The two plan fields that own a done-map. -/
inductive Section where
  | rinse
  | corsodyl
deriving DecidableEq, Repr

/-- The persisted plan. -/
structure Plan where
  friendName : String
  characterName : String
  paracetamol : Medication
  ibuprofen : Medication
  rinse : TimedTask
  corsodyl : TimedTask
  streak : Int
  lastStreakDate : Option String
  lastNotifiedAtMinute : Option String
  introSeen : Bool
  darkMode : Bool

/-- The constant `defaultPlan`. -/
def defaultPlan : Plan where
  friendName := "Aishuu ♥️♥️"
  characterName := "Toofi"
  paracetamol := { enabled := true, everyHours := 6, start := "08:00", lastTaken := none }
  ibuprofen := { enabled := true, everyHours := 8, start := "09:00", lastTaken := none }
  rinse := { enabled := true, times := ["10:30", "15:30", "21:30"], done := some (fun _ => none) }
  corsodyl := { enabled := true, times := ["09:30", "21:00"], done := some (fun _ => none) }
  streak := 0
  lastStreakDate := none
  lastNotifiedAtMinute := none
  introSeen := false
  darkMode := false

/-- `p[section]`. -/
def Plan.task (p : Plan) : Section → TimedTask
  | .rinse => p.rinse
  | .corsodyl => p.corsodyl

/-- `!!task.done?.[key]`. -/
def TimedTask.isDone (t : TimedTask) (key : String) : Bool :=
  match t.done with
  | none => false
  | some d => d key == some true

/-- The updater of `bumpStreak`, with `today = todayISO()`; `p.streak || 0` is
`p.streak` unless that is `0`. -/
def bumpStreak (today : String) (p : Plan) : Plan :=
  if p.lastStreakDate = some today then p
  else { p with streak := jsAdd (if p.streak = 0 then 0 else p.streak) 1,
                lastStreakDate := some today }

/-- The first updater of `markDoneTimed`:
`next[section] = { ...p[section], done: { ...(p[section].done || {}), [doneKey]: true } }`. -/
def setDone (sec : Section) (doneKey : String) (p : Plan) : Plan :=
  let old : String → Option Bool := (p.task sec).done.getD (fun _ => none)
  let task : TimedTask :=
    { p.task sec with done := some (fun k => if k = doneKey then some true else old k) }
  match sec with
  | .rinse => { p with rinse := task }
  | .corsodyl => { p with corsodyl := task }

/-- The plan after `markDoneTimed(section, doneKey)`: its own updater, then the
updater queued by `bumpStreak()` on the date `today`. -/
def markDoneTimed (sec : Section) (doneKey : String) (today : String) (p : Plan) : Plan :=
  bumpStreak today (setDone sec doneKey p)

/-! ## Schedule deriver -/

/-- The result `{ next, mins }` of `nextDoseEveryHours`. -/
structure Dose where
  next : String
  mins : Int
deriving DecidableEq, Repr

/-- The `while` loop of `nextDoseEveryHours`, started with `guard` and
`remaining = 50 - guard` iterations left before `guard < 50` fails.  Returns the
final `candidate` and `guard`. -/
def searchLoop (clock : String) (everyMin : Int) :
    Nat → String → Nat → Option (String × Nat)
  | 0, candidate, guard => some (candidate, guard)
  | remaining + 1, candidate, guard => do
    let mb ← minutesBetween clock candidate
    if mb > everyMin then
      let next ← addMinutes candidate everyMin
      searchLoop clock everyMin remaining next (guard + 1)
    else some (candidate, guard)

/-- `nextDoseEveryHours(start, everyHours, lastTakenISO)` at the current time
`clock`. -/
def nextDoseEveryHours (clock start : String) (everyHours : Int)
    (lastTaken : Option LocalTime) : Option Dose :=
  let everyMin := jsMul everyHours 60
  match lastTaken with
  | some d => do
    let hhmm := pad2 d.hours ++ ":" ++ pad2 d.minutes
    let next ← addMinutes hhmm everyMin
    let mins ← minutesBetween clock next
    pure { next := next, mins := mins }
  | none => do
    let (candidate, _) ← searchLoop clock everyMin 50 start 0
    let mins ← minutesBetween clock candidate
    pure { next := candidate, mins := mins }

/-- The `type` of a schedule item. -/
inductive ItemType where
  | pill
  | timed
deriving DecidableEq, Repr

/-- A schedule item; `doneKey` and `section` are present on timed items only. -/
structure Item where
  id : String
  title : String
  subtitle : String
  when : String
  mins : Int
  type : ItemType
  doneKey : Option String
  «section» : Option Section
deriving DecidableEq, Repr

/-- The item pushed for `plan.paracetamol`; absent when a number is `NaN`. -/
def paracetamolItem (clock : String) (m : Medication) : Option Item := do
  let d ← nextDoseEveryHours clock m.start m.everyHours m.lastTaken
  pure { id := "paracetamol", title := "PARACETAMOL",
         subtitle := "EVERY " ++ String.mk (jsString m.everyHours) ++ "H",
         when := d.next, mins := d.mins, type := .pill, doneKey := none, «section» := none }

/-- The item pushed for `plan.ibuprofen`. -/
def ibuprofenItem (clock : String) (m : Medication) : Option Item := do
  let d ← nextDoseEveryHours clock m.start m.everyHours m.lastTaken
  pure { id := "ibuprofen", title := "IBUPROFEN",
         subtitle := "EVERY " ++ String.mk (jsString m.everyHours) ++ "H",
         when := d.next, mins := d.mins, type := .pill, doneKey := none, «section» := none }

/-- The item pushed for the slot `t` of `plan.corsodyl.times`. -/
def corsodylItem (today clock : String) (task : TimedTask) (t : String) : Option Item := do
  let key := today ++ "_" ++ t
  let done := task.isDone key
  let mins ← minutesBetween clock t
  pure { id := "corsodyl_" ++ t, title := "CORSODYL",
         subtitle := if done then "DONE ✅" else "AM/PM",
         when := t, mins := mins, type := .timed, doneKey := some key,
         «section» := some .corsodyl }

/-- The item pushed for the slot `t` of `plan.rinse.times`. -/
def rinseItem (today clock : String) (task : TimedTask) (t : String) : Option Item := do
  let key := today ++ "_" ++ t
  let done := task.isDone key
  let mins ← minutesBetween clock t
  pure { id := "rinse_" ++ t, title := "SALT RINSE",
         subtitle := if done then "DONE ✅" else "3X/DAY",
         when := t, mins := mins, type := .timed, doneKey := some key,
         «section» := some .rinse }

/-- The pushes of the `schedule` memo in program order: paracetamol, ibuprofen,
the corsodyl slots, the rinse slots, each section only when enabled. -/
def pushes (plan : Plan) (today clock : String) : List (Option Item) :=
  (if plan.paracetamol.enabled then [paracetamolItem clock plan.paracetamol] else []) ++
  (if plan.ibuprofen.enabled then [ibuprofenItem clock plan.ibuprofen] else []) ++
  (if plan.corsodyl.enabled then
    plan.corsodyl.times.map (corsodylItem today clock plan.corsodyl) else []) ++
  (if plan.rinse.enabled then
    plan.rinse.times.map (rinseItem today clock plan.rinse) else [])

/-- All pushed items, when every one of them is present. -/
def collect : List (Option Item) → Option (List Item)
  | [] => some []
  | x :: xs => do
    let y ← x
    let ys ← collect xs
    pure (y :: ys)

/-- The array `items` before it is sorted. -/
def buildItems (plan : Plan) (today clock : String) : Option (List Item) :=
  collect (pushes plan today clock)

/-- The comparator `(a, b) => a.mins - b.mins`. -/
def compareMins (a b : Item) : Int := jsSub a.mins b.mins

/-- Insertion of `x` before the first element it does not follow. -/
def insertItem (x : Item) : List Item → List Item
  | [] => [x]
  | y :: ys => if compareMins x y ≤ 0 then x :: y :: ys else y :: insertItem x ys

/-- `items.sort(compareMins)`.  `Array.prototype.sort` is a stable comparison
sort; it is modelled by insertion sort, each element inserted in front of the
elements that followed it in the input. -/
def sortItems : List Item → List Item
  | [] => []
  | x :: xs => insertItem x (sortItems xs)

/-- The `schedule` memo for the plan, `today = todayISO()` and the current time
`clock`.  It is `none` when the `mins` of a pushed item is not a number. -/
def schedule (plan : Plan) (today clock : String) : Option (List Item) :=
  (buildItems plan today clock).map sortItems

/-- The data-model invariants the deriver relies on: start times and time slots
are well-formed `"HH:MM"` strings, and a stored `lastTaken` reads as an hour in
`0..23` and a minute in `0..59`. -/
def Medication.valid (m : Medication) : Bool :=
  validHHMM m.start &&
  match m.lastTaken with
  | none => true
  | some d =>
    decide (0 ≤ d.hours) && decide (d.hours ≤ 23) && decide (0 ≤ d.minutes) &&
    decide (d.minutes ≤ 59)

/-- Validity of all schedule parameters of a plan. -/
def Plan.valid (p : Plan) : Bool :=
  p.paracetamol.valid && p.ibuprofen.valid && p.corsodyl.times.all validHHMM &&
  p.rinse.times.all validHHMM

/-- Both products `everyHours * 60` of a plan are finite doubles. -/
def Plan.finiteIntervals (p : Plan) : Bool :=
  roundsFinite (p.paracetamol.everyHours * 60) && roundsFinite (p.ibuprofen.everyHours * 60)

/-- A schedule item as it reads once `(sec, key)` is marked done: the subtitle of
the item owning that section and key is the done marker. -/
def markedDone (sec : Section) (key : String) (x : Item) : Item :=
  if x.«section» = some sec ∧ x.doneKey = some key then { x with subtitle := "DONE ✅" }
  else x

/-! ## Notification dispatcher -/

/-- A call `safeNotify(title, body)`. -/
structure Notification where
  title : String
  body : String
deriving DecidableEq, Repr

/-- The stamp built by the notification effect. -/
def stampOf (today clock : String) : String := today ++ "_" ++ clock

/-- One run of the notification effect: the plan after it and the calls of
`safeNotify` it made. -/
def notifyStep (plan : Plan) (sched : List Item) (today clock : String) :
    Plan × List Notification :=
  match sched.find? (fun x => x.mins == 0) with
  | none => (plan, [])
  | some due =>
    let stamp := stampOf today clock
    if plan.lastNotifiedAtMinute = some stamp then (plan, [])
    else
      ({ plan with lastNotifiedAtMinute := some stamp },
        [{ title := plan.characterName ++ " 🦷", body := due.title ++ " TIME! TAP DONE ✅" }])

/-- A recompute as the dispatcher sees it: the derived schedule, the date and the
current time. -/
structure Recompute where
  sched : List Item
  today : String
  clock : String

/-- The dispatcher over a sequence of recomputes: the final plan and the log of
notifications, each with the stamp it was sent for. -/
def runNotify : Plan → List Recompute → Plan × List (String × Notification)
  | plan, [] => (plan, [])
  | plan, r :: rest =>
    let step := notifyStep plan r.sched r.today r.clock
    let tail := runNotify step.1 rest
    (tail.1, step.2.map (fun n => (stampOf r.today r.clock, n)) ++ tail.2)

/-- Stamps of a sequence in which equal stamps are consecutive: once the stamp
has changed, the earlier stamp does not come back. -/
def stampsConsecutive : List String → Bool
  | [] => true
  | s :: rest => !((rest.dropWhile (fun t => t == s)).contains s) && stampsConsecutive rest

/-! ## Example data -/

/-- The rinse slot `"10:30"` as derived from the default plan on `2025-01-15` at
`10:00`, not done. -/
def rinseAtTen : Item :=
  { id := "rinse_10:30", title := "SALT RINSE", subtitle := "3X/DAY", when := "10:30",
    mins := 30, type := .timed, doneKey := some "2025-01-15_10:30", «section» := some .rinse }

/-- The schedule derived from the default plan on `2025-01-15` at `10:00`. -/
def scheduleAtTen : List Item :=
  [rinseAtTen,
   { id := "paracetamol", title := "PARACETAMOL", subtitle := "EVERY 6H", when := "14:00",
     mins := 240, type := .pill, doneKey := none, «section» := none },
   { id := "rinse_15:30", title := "SALT RINSE", subtitle := "3X/DAY", when := "15:30",
     mins := 330, type := .timed, doneKey := some "2025-01-15_15:30", «section» := some .rinse },
   { id := "ibuprofen", title := "IBUPROFEN", subtitle := "EVERY 8H", when := "17:00",
     mins := 420, type := .pill, doneKey := none, «section» := none },
   { id := "corsodyl_21:00", title := "CORSODYL", subtitle := "AM/PM", when := "21:00",
     mins := 660, type := .timed, doneKey := some "2025-01-15_21:00",
     «section» := some .corsodyl },
   { id := "rinse_21:30", title := "SALT RINSE", subtitle := "3X/DAY", when := "21:30",
     mins := 690, type := .timed, doneKey := some "2025-01-15_21:30", «section» := some .rinse },
   { id := "corsodyl_09:30", title := "CORSODYL", subtitle := "AM/PM", when := "09:30",
     mins := 1410, type := .timed, doneKey := some "2025-01-15_09:30",
     «section» := some .corsodyl }]

/-- The default plan after the first corsodyl time input was cleared: the input
stores the empty string. -/
def clearedSlotPlan : Plan :=
  { defaultPlan with corsodyl := { defaultPlan.corsodyl with times := ["", "21:00"] } }

/-- A recompute at which paracetamol is due, with the given date and time. -/
def dueRecompute (today clock : String) : Recompute :=
  { sched := [{ id := "paracetamol", title := "PARACETAMOL", subtitle := "EVERY 6H",
                when := clock, mins := 0, type := .pill, doneKey := none, «section» := none }],
    today := today, clock := clock }

/-! ## Theorems -/

theorem excessBits_of_lt (fuel a : Nat) (h : a < 2 ^ 53) : excessBits fuel a = 0 := by
  cases fuel with
  | zero => rfl
  | succ n =>
    have h2 : a < 9007199254740992 := by simpa using h
    simp [excessBits, h2]

theorem roundDouble_of_lt (x : Int) (h : x.natAbs < 2 ^ 53) : roundDouble x = x := by
  simp [roundDouble, excessBits_of_lt _ _ h]

theorem roundDouble_small (x : Int) (h1 : -9007199254740992 < x) (h2 : x < 9007199254740992) :
    roundDouble x = x := by
  apply roundDouble_of_lt
  omega

theorem digitVal_lt (c : Char) (h : c ∈ digitChars) : digitVal c < 10 := by
  have := List.indexOf_lt_length.2 h
  simpa [digitVal, digitChars] using this

theorem digit_ne_colon (c : Char) (h : c ∈ digitChars) : c ≠ ':' := by
  rintro rfl
  revert h
  decide

theorem splitColon_hhmm (a b d e : Char) (ha : a ∈ digitChars) (hb : b ∈ digitChars)
    (hd : d ∈ digitChars) (he : e ∈ digitChars) :
    splitColon [a, b, ':', d, e] = [[a, b], [d, e]] := by
  simp [splitColon, digit_ne_colon a ha, digit_ne_colon b hb, digit_ne_colon d hd,
    digit_ne_colon e he]

theorem Number_two_digits (a b : Char) (ha : a ∈ digitChars) (hb : b ∈ digitChars) :
    Number [a, b] = some ((digitVal a * 10 + digitVal b : Nat) : Int) := by
  have h1 := digitVal_lt a ha
  have h2 := digitVal_lt b hb
  have : roundDouble ((digitVal a * 10 + digitVal b : Nat) : Int)
      = ((digitVal a * 10 + digitVal b : Nat) : Int) := by
    apply roundDouble_small <;> omega
  push_cast at this
  simp [Number, ha, hb, this]

theorem pad2_two_digits (a b : Char) (ha : a ∈ digitChars) (hb : b ∈ digitChars) :
    pad2 ((digitVal a * 10 + digitVal b : Nat) : Int) = String.mk [a, b] := by
  simp only [digitChars, List.mem_cons, List.mem_singleton, List.not_mem_nil, or_false] at ha hb
  rcases ha with rfl | rfl | rfl | rfl | rfl | rfl | rfl | rfl | rfl | rfl <;>
  rcases hb with rfl | rfl | rfl | rfl | rfl | rfl | rfl | rfl | rfl | rfl <;> rfl


theorem splitNumbers_mk (a b d e : Char) (ha : a ∈ digitChars) (hb : b ∈ digitChars)
    (hd : d ∈ digitChars) (he : e ∈ digitChars) :
    splitNumbers (String.mk [a, b, ':', d, e])
      = some (((digitVal a * 10 + digitVal b : Nat) : Int),
          ((digitVal d * 10 + digitVal e : Nat) : Int)) := by
  simp only [splitNumbers, splitColon_hhmm a b d e ha hb hd he, List.map,
    Number_two_digits a b ha hb, Number_two_digits d e hd he]

theorem exists_digits : ∀ k < 100, ∃ a ∈ digitChars, ∃ b ∈ digitChars,
    digitVal a * 10 + digitVal b = k := by
  decide

theorem validHHMM_cases (s : String) (h : validHHMM s = true) :
    ∃ a b d e, a ∈ digitChars ∧ b ∈ digitChars ∧ d ∈ digitChars ∧ e ∈ digitChars ∧
      digitVal a * 10 + digitVal b < 24 ∧ digitVal d * 10 + digitVal e < 60 ∧
      s = String.mk [a, b, ':', d, e] := by
  obtain ⟨l⟩ := s
  match l, h with
  | [a, b, c, d, e], h =>
    simp only [validHHMM, Bool.and_eq_true, decide_eq_true_eq] at h
    obtain ⟨⟨⟨⟨⟨⟨ha, hb⟩, hc⟩, hd⟩, he⟩, h1⟩, h2⟩ := h
    subst hc
    exact ⟨a, b, d, e, ha, hb, hd, he, h1, h2, rfl⟩

theorem hhmmOfMinute_mk (a b d e : Char) (ha : a ∈ digitChars) (hb : b ∈ digitChars)
    (hd : d ∈ digitChars) (he : e ∈ digitChars) (h60 : digitVal d * 10 + digitVal e < 60) :
    hhmmOfMinute (((digitVal a * 10 + digitVal b) * 60 + (digitVal d * 10 + digitVal e) : Nat) : Int)
      = String.mk [a, b, ':', d, e] := by
  have e1 : (((digitVal a * 10 + digitVal b) * 60 + (digitVal d * 10 + digitVal e) : Nat) : Int) / 60
      = ((digitVal a * 10 + digitVal b : Nat) : Int) := by
    omega
  have e2 : jsMod (((digitVal a * 10 + digitVal b) * 60 + (digitVal d * 10 + digitVal e) : Nat) : Int) 60
      = ((digitVal d * 10 + digitVal e : Nat) : Int) := by
    unfold jsMod
    rw [Int.tmod_eq_emod (by omega) (by omega)]
    omega
  rw [hhmmOfMinute, e1, e2, pad2_two_digits a b ha hb, pad2_two_digits d e hd he]
  rfl

/-- Every well-formed string is the print of its minute of the day. -/
theorem validHHMM_eq (s : String) (h : validHHMM s = true) :
    ∃ n : Nat, n < 1440 ∧ s = hhmmOfMinute (n : Int) ∧
      splitNumbers s = some (((n / 60 : Nat) : Int), ((n % 60 : Nat) : Int)) := by
  obtain ⟨a, b, d, e, ha, hb, hd, he, h1, h2, rfl⟩ := validHHMM_cases s h
  refine ⟨(digitVal a * 10 + digitVal b) * 60 + (digitVal d * 10 + digitVal e), by omega,
    (hhmmOfMinute_mk a b d e ha hb hd he h2).symm, ?_⟩
  rw [splitNumbers_mk a b d e ha hb hd he]
  congr 2 <;> congr 1 <;> omega

/-- The print of a minute of the day is well formed. -/
theorem validHHMM_hhmmOfMinute (n : Nat) (h : n < 1440) :
    validHHMM (hhmmOfMinute (n : Int)) = true := by
  obtain ⟨a, ha, b, hb, hab⟩ := exists_digits (n / 60) (by omega)
  obtain ⟨d, hd, e, he, hde⟩ := exists_digits (n % 60) (by omega)
  have hn : n = (digitVal a * 10 + digitVal b) * 60 + (digitVal d * 10 + digitVal e) := by
    omega
  have h60 : digitVal d * 10 + digitVal e < 60 := by omega
  have h24 : digitVal a * 10 + digitVal b < 24 := by omega
  rw [hn, hhmmOfMinute_mk a b d e ha hb hd he h60]
  simp [validHHMM, ha, hb, hd, he, h60, h24]


theorem splitNumbers_hhmmOfMinute (t : Int) (h0 : 0 ≤ t) (h1 : t < 1440) :
    splitNumbers (hhmmOfMinute t) = some (t / 60, t % 60) := by
  lift t to ℕ using h0
  have hlt : t < 1440 := by omega
  obtain ⟨n, hn, he, hs⟩ := validHHMM_eq _ (validHHMM_hhmmOfMinute t hlt)
  obtain ⟨a, ha, b, hb, hab⟩ := exists_digits (t / 60) (by omega)
  obtain ⟨d, hd, e, he, hde⟩ := exists_digits (t % 60) (by omega)
  have ht : t = (digitVal a * 10 + digitVal b) * 60 + (digitVal d * 10 + digitVal e) := by
    omega
  have h60 : digitVal d * 10 + digitVal e < 60 := by omega
  have e1 : hhmmOfMinute (t : Int) = String.mk [a, b, ':', d, e] := by
    rw [ht]
    exact hhmmOfMinute_mk a b d e ha hb hd he h60
  rw [e1, splitNumbers_mk a b d e ha hb hd he, hab, hde]
  congr 2

theorem validHHMM_hhmmOfMinute_int (t : Int) (h0 : 0 ≤ t) (h1 : t < 1440) :
    validHHMM (hhmmOfMinute t) = true := by
  lift t to ℕ using h0
  exact validHHMM_hhmmOfMinute t (by omega)

theorem validHHMM_eq_int (s : String) (h : validHHMM s = true) :
    ∃ t : Int, 0 ≤ t ∧ t < 1440 ∧ s = hhmmOfMinute t := by
  obtain ⟨n, hn, he, -⟩ := validHHMM_eq s h
  exact ⟨n, by omega, by omega, he⟩

theorem minuteOfDay_hhmmOfMinute (t : Int) (h0 : 0 ≤ t) (h1 : t < 1440) :
    minuteOfDay (hhmmOfMinute t) = some t := by
  simp only [minuteOfDay, splitNumbers_hhmmOfMinute t h0 h1, Option.map_some']
  congr 1
  omega

theorem tmod_neg_left (y b : Int) : Int.tmod (-y) b = -Int.tmod y b := by
  rw [Int.tmod_def, Int.tmod_def, Int.neg_tdiv]
  ring

theorem jsMod_wrap (x : Int) : jsMod (jsAdd (jsMod x 1440) 1440) 1440 = x % 1440 := by
  unfold jsMod jsAdd
  have hb : -1440 < Int.tmod x 1440 ∧ Int.tmod x 1440 < 1440 ∧
      (Int.tmod x 1440 + 1440) % 1440 = x % 1440 := by
    rcases le_or_lt 0 x with hx | hx
    · rw [Int.tmod_eq_emod hx (by omega)]
      omega
    · obtain ⟨y, rfl⟩ : ∃ y, x = -y := ⟨-x, by omega⟩
      rw [tmod_neg_left, Int.tmod_eq_emod (by omega) (by omega)]
      omega
  obtain ⟨h1, h2, h3⟩ := hb
  rw [roundDouble_small _ (by omega) (by omega), Int.tmod_eq_emod (by omega) (by omega), h3]

theorem minutesBetween_hhmmOfMinute (a b : Int) (ha0 : 0 ≤ a) (ha1 : a < 1440)
    (hb0 : 0 ≤ b) (hb1 : b < 1440) :
    minutesBetween (hhmmOfMinute a) (hhmmOfMinute b) = some ((b - a) % 1440) := by
  have ea : jsAdd (jsMul (a / 60) 60) (a % 60) = a := by
    unfold jsAdd jsMul
    rw [roundDouble_small (a / 60 * 60) (by omega) (by omega),
      roundDouble_small _ (by omega) (by omega)]
    omega
  have eb : jsAdd (jsMul (b / 60) 60) (b % 60) = b := by
    unfold jsAdd jsMul
    rw [roundDouble_small (b / 60 * 60) (by omega) (by omega),
      roundDouble_small _ (by omega) (by omega)]
    omega
  have ed : jsSub b a = b - a := roundDouble_small _ (by omega) (by omega)
  simp only [minutesBetween, splitNumbers_hhmmOfMinute a ha0 ha1,
    splitNumbers_hhmmOfMinute b hb0 hb1, Option.bind_eq_bind, Option.some_bind, ea, eb, ed,
    Option.pure_def]
  congr 1
  split
  · rw [jsAdd, roundDouble_small _ (by omega) (by omega)]
    omega
  · omega

theorem addMinutes_hhmmOfMinute (t add : Int) (h0 : 0 ≤ t) (h1 : t < 1440) :
    addMinutes (hhmmOfMinute t) add = some (hhmmOfMinute (jsAdd t add % 1440)) := by
  have et : jsAdd (jsMul (t / 60) 60) (t % 60) = t := by
    unfold jsAdd jsMul
    rw [roundDouble_small (t / 60 * 60) (by omega) (by omega),
      roundDouble_small _ (by omega) (by omega)]
    omega
  simp only [addMinutes, splitNumbers_hhmmOfMinute t h0 h1, Option.bind_eq_bind,
    Option.some_bind, et, jsMod_wrap, Option.pure_def]
  rfl

/-! ### Rounding keeps the sign and the order of magnitude -/

theorem excessBits_quot (fuel a : Nat) (h : 9007199254740992 ≤ a) :
    4503599627370496 ≤ a / 2 ^ excessBits fuel a := by
  induction fuel generalizing a with
  | zero => simp [excessBits]; omega
  | succ n ih =>
    have h2 : ¬ a < 9007199254740992 := by omega
    simp only [excessBits, Nat.reducePow, h2, if_false]
    rw [pow_succ, mul_comm, ← Nat.div_div_eq_div_mul]
    rcases Nat.lt_or_ge (a / 2) 9007199254740992 with h3 | h3
    · have : excessBits n (a / 2) = 0 := excessBits_of_lt _ _ (by simpa using h3)
      rw [this]
      simp
      omega
    · exact ih (a / 2) h3

theorem roundDouble_natAbs_large (x : Int) (h : 9007199254740992 ≤ x.natAbs) :
    ∃ k : Nat, 4503599627370496 ≤ k ∧ roundDouble x = Int.sign x * (k : Int) := by
  unfold roundDouble
  simp only []
  split
  · refine ⟨x.natAbs, by omega, ?_⟩
    rw [Int.sign_mul_natAbs]
  · refine ⟨_, ?_, rfl⟩
    have hq := excessBits_quot x.natAbs x.natAbs h
    have hp : 1 ≤ 2 ^ excessBits x.natAbs x.natAbs := Nat.one_le_two_pow
    split
    · calc 4503599627370496 ≤ x.natAbs / 2 ^ excessBits x.natAbs x.natAbs := hq
        _ ≤ (x.natAbs / 2 ^ excessBits x.natAbs x.natAbs + 1) * 1 := by omega
        _ ≤ _ := Nat.mul_le_mul_left _ hp
    · calc 4503599627370496 ≤ x.natAbs / 2 ^ excessBits x.natAbs x.natAbs := hq
        _ = (x.natAbs / 2 ^ excessBits x.natAbs x.natAbs) * 1 := by omega
        _ ≤ _ := Nat.mul_le_mul_left _ hp

theorem roundDouble_pos_large (x : Int) (h : 9007199254740992 ≤ x) :
    4503599627370496 ≤ roundDouble x := by
  obtain ⟨k, hk, e⟩ := roundDouble_natAbs_large x (by omega)
  rw [e, Int.sign_eq_one_of_pos (by omega)]
  omega

theorem roundDouble_neg_large (x : Int) (h : x ≤ -9007199254740992) :
    roundDouble x ≤ -4503599627370496 := by
  obtain ⟨k, hk, e⟩ := roundDouble_natAbs_large x (by omega)
  rw [e, Int.sign_eq_neg_one_of_neg (by omega)]
  omega

theorem roundDouble_nonpos_iff (x : Int) : roundDouble x ≤ 0 ↔ x ≤ 0 := by
  rcases lt_or_le x 9007199254740992 with h1 | h1
  · rcases lt_or_le (-9007199254740992) x with h2 | h2
    · rw [roundDouble_small x h2 h1]
    · have := roundDouble_neg_large x h2
      constructor <;> intro <;> omega
  · have := roundDouble_pos_large x h1
    constructor <;> intro <;> omega

theorem roundDouble_ge_of_ge (x c : Int) (hc0 : 0 ≤ c) (hc : c ≤ 4503599627370496)
    (h : c ≤ x) :
    c ≤ roundDouble x := by
  rcases lt_or_le x 9007199254740992 with h1 | h1
  · rcases lt_or_le (-9007199254740992) x with h2 | h2
    · rw [roundDouble_small x h2 h1]
      exact h
    · have := roundDouble_neg_large x h2
      omega
  · have := roundDouble_pos_large x h1
    omega

theorem shiftRight_lt_iff (a n k : Nat) : a >>> n < k ↔ a < k * 2 ^ n := by
  rw [Nat.shiftRight_eq_div_pow]
  exact Nat.div_lt_iff_lt_mul (by positivity)

theorem roundsFinite_iff (x : Int) :
    roundsFinite x = true ↔ x.natAbs < (2 ^ 54 - 1) * 2 ^ 970 := by
  unfold roundsFinite
  rw [decide_eq_true_iff]
  exact shiftRight_lt_iff x.natAbs 970 (2 ^ 54 - 1)

/-- A product that rounds to a finite double is modelled by an integer of
magnitude below `2 ^ 1024`. -/
theorem roundDouble_finite (x : Int) (h : roundsFinite x = true) :
    (roundDouble x).natAbs < 2 ^ 54 * 2 ^ 970 := by
  rw [roundsFinite_iff] at h
  have hT : (0 : Nat) < 2 ^ 970 := by positivity
  unfold roundDouble
  simp only []
  split
  · generalize 2 ^ 970 = T at *
    norm_num at h ⊢
    omega
  · rename_i he
    have ha : 9007199254740992 ≤ x.natAbs := by
      by_contra hcon
      exact he (excessBits_of_lt _ _ (by norm_num; omega))
    have hq := excessBits_quot x.natAbs x.natAbs ha
    generalize excessBits x.natAbs x.natAbs = e at *
    have hdm := Nat.div_add_mod x.natAbs (2 ^ e)
    have hqP : 4503599627370496 * 2 ^ e ≤ x.natAbs / 2 ^ e * 2 ^ e :=
      Nat.mul_le_mul_right _ hq
    have hle := Nat.div_mul_le_self x.natAbs (2 ^ e)
    have he971 : e ≤ 971 := by
      have h0 : ∀ T : Nat, (2 ^ 54 - 1) * T ≤ 2 ^ 54 * T :=
        fun T => Nat.mul_le_mul_right T (Nat.sub_le _ _)
      have h1 : 2 ^ (52 + e) < 2 ^ (54 + 970) := by
        rw [pow_add, pow_add]
        calc 2 ^ 52 * 2 ^ e ≤ x.natAbs := by
              norm_num
              omega
          _ < (2 ^ 54 - 1) * 2 ^ 970 := h
          _ ≤ 2 ^ 54 * 2 ^ 970 := h0 _
      have := (Nat.pow_lt_pow_iff_right (by omega : 1 < 2)).1 h1
      omega
    have hmono : ∀ n m : Nat, n ≤ m → 2 ^ n ≤ 2 ^ m :=
      fun n m hnm => Nat.pow_le_pow_right (by omega) hnm
    have hH : 2 ^ (e - 1) ≤ 2 ^ 970 := hmono _ _ (by omega)
    have hP : 2 ^ e = 2 * 2 ^ (e - 1) := by
      obtain ⟨k, rfl⟩ : ∃ k, e = k + 1 := ⟨e - 1, by omega⟩
      simp [pow_succ, mul_comm]
    rw [Int.natAbs_mul, Int.natAbs_ofNat]
    have hs : (Int.sign x).natAbs ≤ 1 := by
      rw [Int.natAbs_sign]
      split <;> omega
    have hmain : (if 2 ^ (e - 1) < x.natAbs % 2 ^ e ∨
          x.natAbs % 2 ^ e = 2 ^ (e - 1) ∧ x.natAbs / 2 ^ e % 2 = 1
        then x.natAbs / 2 ^ e + 1 else x.natAbs / 2 ^ e) * 2 ^ e < 2 ^ 54 * 2 ^ 970 := by
      have hsucc : (x.natAbs / 2 ^ e + 1) * 2 ^ e = x.natAbs / 2 ^ e * 2 ^ e + 2 ^ e := by
        ring
      have hcomm : 2 ^ e * (x.natAbs / 2 ^ e) = x.natAbs / 2 ^ e * 2 ^ e := mul_comm _ _
      rw [hcomm] at hdm
      split
      · rename_i hc
        rw [hsucc]
        generalize 2 ^ 970 = T at *
        generalize x.natAbs / 2 ^ e * 2 ^ e = M at *
        generalize x.natAbs % 2 ^ e = r at *
        generalize 2 ^ (e - 1) = H at *
        generalize 2 ^ e = P at *
        norm_num at h ⊢
        omega
      · generalize 2 ^ 970 = T at *
        generalize x.natAbs / 2 ^ e * 2 ^ e = M at *
        norm_num at h ⊢
        omega
    calc (Int.sign x).natAbs * _ ≤ 1 * _ := Nat.mul_le_mul_right _ hs
      _ = _ := Nat.one_mul _
      _ < _ := hmain

/-! ### Time utilities: claims C1, C2, C3 -/

/-- C1: for valid 24-hour `"HH:MM"` strings `from` and `to`, with hours `fh`, `th`
in `0..23` and minutes `fm`, `tm` in `0..59`, `minutesBetween from to` is
`((60 * th + tm) - (60 * fh + fm)) mod 1440`; the result lies in `[0, 1439]` and
`minutesBetween to to` is `0`. -/
theorem minutesBetween_spec (fromHHMM toHHMM : String)
    (hf : validHHMM fromHHMM = true) (ht : validHHMM toHHMM = true) :
    ∃ fh fm th tm : Int,
      splitNumbers fromHHMM = some (fh, fm) ∧ splitNumbers toHHMM = some (th, tm) ∧
      0 ≤ fh ∧ fh ≤ 23 ∧ 0 ≤ fm ∧ fm ≤ 59 ∧ 0 ≤ th ∧ th ≤ 23 ∧ 0 ≤ tm ∧ tm ≤ 59 ∧
      minutesBetween fromHHMM toHHMM
        = some (((60 * th + tm) - (60 * fh + fm)) % 1440) ∧
      0 ≤ ((60 * th + tm) - (60 * fh + fm)) % 1440 ∧
      ((60 * th + tm) - (60 * fh + fm)) % 1440 ≤ 1439 ∧
      minutesBetween toHHMM toHHMM = some 0 ∧ minutesBetween fromHHMM fromHHMM = some 0 := by
  obtain ⟨a, ha0, ha1, rfl⟩ := validHHMM_eq_int fromHHMM hf
  obtain ⟨b, hb0, hb1, rfl⟩ := validHHMM_eq_int toHHMM ht
  refine ⟨a / 60, a % 60, b / 60, b % 60, splitNumbers_hhmmOfMinute a ha0 ha1,
    splitNumbers_hhmmOfMinute b hb0 hb1, by omega, by omega, by omega, by omega, by omega,
    by omega, by omega, by omega, ?_, by omega, by omega, ?_, ?_⟩
  · rw [minutesBetween_hhmmOfMinute a b ha0 ha1 hb0 hb1]
    congr 1
    omega
  · rw [minutesBetween_hhmmOfMinute b b hb0 hb1 hb0 hb1]
    congr 1
    omega
  · rw [minutesBetween_hhmmOfMinute a a ha0 ha1 ha0 ha1]
    congr 1
    omega

/-- C1 at `from = "22:15"`, `to = "06:40"`, where the result is `505`. -/
theorem minutesBetween_spec_witness :
    validHHMM "22:15" = true ∧ validHHMM "06:40" = true ∧
    minutesBetween "22:15" "06:40" = some 505 ∧
    ∃ fh fm th tm : Int,
      splitNumbers "22:15" = some (fh, fm) ∧ splitNumbers "06:40" = some (th, tm) ∧
      0 ≤ fh ∧ fh ≤ 23 ∧ 0 ≤ fm ∧ fm ≤ 59 ∧ 0 ≤ th ∧ th ≤ 23 ∧ 0 ≤ tm ∧ tm ≤ 59 ∧
      minutesBetween "22:15" "06:40"
        = some (((60 * th + tm) - (60 * fh + fm)) % 1440) ∧
      0 ≤ ((60 * th + tm) - (60 * fh + fm)) % 1440 ∧
      ((60 * th + tm) - (60 * fh + fm)) % 1440 ≤ 1439 ∧
      minutesBetween "06:40" "06:40" = some 0 ∧ minutesBetween "22:15" "22:15" = some 0 :=
  ⟨by decide, by decide, by decide,
    minutesBetween_spec "22:15" "06:40" (by decide) (by decide)⟩

/-- C2, as stated, fails: at `t = "00:01"` and `d = 2 ^ 53` the sum `1 + d` is not
a double and rounds to `d`, so adding `d` and then `-d` gives `"00:00"`. -/
theorem addMinutes_roundtrip_counterexample :
    validHHMM "00:01" = true ∧
    (addMinutes "00:01" 9007199254740992).bind
        (fun r => addMinutes r (-9007199254740992)) = some "00:00" ∧
    (addMinutes "00:01" 9007199254740992).bind
        (fun r => addMinutes r (-9007199254740992)) ≠ some "00:01" := by
  decide

/-- C2, amended: for every valid `"HH:MM"` string `t` and every integer `d` with
`|d| ≤ 2 ^ 53 - 1440`, `addMinutes (addMinutes t d) (-d)` is the string `t`. -/
theorem addMinutes_roundtrip (t : String) (d : Int) (ht : validHHMM t = true)
    (hd1 : -9007199254739552 ≤ d) (hd2 : d ≤ 9007199254739552) :
    (addMinutes t d).bind (fun r => addMinutes r (-d)) = some t := by
  obtain ⟨a, ha0, ha1, rfl⟩ := validHHMM_eq_int t ht
  have e1 : jsAdd a d = a + d := roundDouble_small _ (by omega) (by omega)
  have e2 : jsAdd ((a + d) % 1440) (-d) = (a + d) % 1440 + -d :=
    roundDouble_small _ (by omega) (by omega)
  rw [addMinutes_hhmmOfMinute a d ha0 ha1, Option.some_bind, e1,
    addMinutes_hhmmOfMinute _ (-d) (by omega) (by omega), e2]
  congr 2
  omega

/-- C2 amended, at `t = "23:59"` and `d = -5000`. -/
theorem addMinutes_roundtrip_witness :
    validHHMM "23:59" = true ∧ (-9007199254739552 : Int) ≤ -5000 ∧
    (-5000 : Int) ≤ 9007199254739552 ∧ addMinutes "23:59" (-5000) = some "12:39" ∧
    (addMinutes "23:59" (-5000)).bind (fun r => addMinutes r (- -5000)) = some "23:59" :=
  ⟨by decide, by decide, by decide, by decide,
    addMinutes_roundtrip "23:59" (-5000) (by decide) (by decide) (by decide)⟩

/-- C3, as stated, fails: at `hhmm = "00:02"` (minute of day `2`) and
`delta = 2 ^ 53 - 1` the result is `"00:32"`, minute of day `32`, while
`(2 + delta) mod 1440` is `33`. -/
theorem addMinutes_spec_counterexample :
    validHHMM "00:02" = true ∧ minuteOfDay "00:02" = some 2 ∧
    addMinutes "00:02" 9007199254740991 = some "00:32" ∧
    minuteOfDay "00:32" = some 32 ∧ (2 + 9007199254740991 : Int) % 1440 = 33 := by
  decide

/-- C3, amended: for every valid `"HH:MM"` string with hours `h` and minutes `m`
and every integer `delta` with `|delta| ≤ 2 ^ 53 - 1440`, `addMinutes hhmm delta`
is a well-formed `"HH:MM"` string, the print `pad2 hours : pad2 minutes` of the
residue `(60 * h + m + delta) mod 1440`, and that residue, which lies in
`[0, 1439]`, is its minute of the day. -/
theorem addMinutes_spec (hhmm : String) (delta : Int) (hs : validHHMM hhmm = true)
    (hd1 : -9007199254739552 ≤ delta) (hd2 : delta ≤ 9007199254739552) :
    ∃ (h m : Int) (r : String),
      splitNumbers hhmm = some (h, m) ∧ addMinutes hhmm delta = some r ∧
      validHHMM r = true ∧
      r = pad2 ((60 * h + m + delta) % 1440 / 60) ++ ":"
            ++ pad2 ((60 * h + m + delta) % 1440 % 60) ∧
      minuteOfDay r = some ((60 * h + m + delta) % 1440) ∧
      0 ≤ (60 * h + m + delta) % 1440 ∧ (60 * h + m + delta) % 1440 < 1440 := by
  obtain ⟨a, ha0, ha1, rfl⟩ := validHHMM_eq_int hhmm hs
  have e1 : jsAdd a delta = a + delta := roundDouble_small _ (by omega) (by omega)
  have e3 : 60 * (a / 60) + a % 60 + delta = a + delta := by omega
  have hm0 : 0 ≤ (a + delta) % 1440 := by omega
  have hm1 : (a + delta) % 1440 < 1440 := by omega
  refine ⟨a / 60, a % 60, hhmmOfMinute ((a + delta) % 1440),
    splitNumbers_hhmmOfMinute a ha0 ha1, ?_, ?_, ?_, ?_, ?_, ?_⟩
  · rw [addMinutes_hhmmOfMinute a delta ha0 ha1, e1]
  · exact validHHMM_hhmmOfMinute_int _ hm0 hm1
  · rw [e3, hhmmOfMinute, jsMod, Int.tmod_eq_emod hm0 (by omega)]
  · rw [e3]
    exact minuteOfDay_hhmmOfMinute _ hm0 hm1
  · rw [e3]
    exact hm0
  · rw [e3]
    exact hm1

/-- C3 amended, at `hhmm = "00:10"` and `delta = -3000`, where the result is
`"22:10"`. -/
theorem addMinutes_spec_witness :
    validHHMM "00:10" = true ∧ (-9007199254739552 : Int) ≤ -3000 ∧
    (-3000 : Int) ≤ 9007199254739552 ∧ addMinutes "00:10" (-3000) = some "22:10" ∧
    ∃ (h m : Int) (r : String),
      splitNumbers "00:10" = some (h, m) ∧ addMinutes "00:10" (-3000) = some r ∧
      validHHMM r = true ∧
      r = pad2 ((60 * h + m + -3000) % 1440 / 60) ++ ":"
            ++ pad2 ((60 * h + m + -3000) % 1440 % 60) ∧
      minuteOfDay r = some ((60 * h + m + -3000) % 1440) ∧
      0 ≤ (60 * h + m + -3000) % 1440 ∧ (60 * h + m + -3000) % 1440 < 1440 :=
  ⟨by decide, by decide, by decide, by decide,
    addMinutes_spec "00:10" (-3000) (by decide) (by decide) (by decide)⟩

/-! ### The search loop of `nextDoseEveryHours` -/

theorem searchLoop_zero (clock : String) (e : Int) (cand : String) (g : Nat) :
    searchLoop clock e 0 cand g = some (cand, g) := rfl

theorem searchLoop_stop (c e v : Int) (f g : Nat) (hc0 : 0 ≤ c) (hc1 : c < 1440)
    (hv0 : 0 ≤ v) (hv1 : v < 1440) (h : (v - c) % 1440 ≤ e) :
    searchLoop (hhmmOfMinute c) e f (hhmmOfMinute v) g = some (hhmmOfMinute v, g) := by
  cases f with
  | zero => rfl
  | succ n =>
    have h2 : ¬ (v - c) % 1440 > e := by omega
    simp only [searchLoop, minutesBetween_hhmmOfMinute c v hc0 hc1 hv0 hv1,
      Option.bind_eq_bind, Option.some_bind, h2, if_false]

theorem searchLoop_step (c e v : Int) (n g : Nat) (hc0 : 0 ≤ c) (hc1 : c < 1440)
    (hv0 : 0 ≤ v) (hv1 : v < 1440) (h : e < (v - c) % 1440) :
    searchLoop (hhmmOfMinute c) e (n + 1) (hhmmOfMinute v) g
      = searchLoop (hhmmOfMinute c) e n (hhmmOfMinute (jsAdd v e % 1440)) (g + 1) := by
  have h2 : (v - c) % 1440 > e := h
  simp only [searchLoop, minutesBetween_hhmmOfMinute c v hc0 hc1 hv0 hv1,
    Option.bind_eq_bind, Option.some_bind, h2, if_true,
    addMinutes_hhmmOfMinute v e hv0 hv1]

/-- With a step `e ≥ 1` and enough iterations left to pass midnight, the loop
stops at the first candidate `v + j * e` within `e` minutes after the clock. -/
theorem searchLoop_spec (c e : Int) (hc0 : 0 ≤ c) (hc1 : c < 1440) (he : 1 ≤ e) :
    ∀ (f : Nat) (v : Int) (g : Nat), 0 ≤ v → v < 1440 →
      ((v - c) % 1440 ≤ e ∨ 1440 ≤ (v - c) % 1440 + f * e) →
      ∃ j : Nat, j ≤ f ∧
        searchLoop (hhmmOfMinute c) e f (hhmmOfMinute v) g
          = some (hhmmOfMinute ((v + j * e) % 1440), g + j) ∧
        (v + j * e - c) % 1440 ≤ e ∧
        (j = 0 ∨ (v - c) % 1440 + ((j : Int) - 1) * e < 1440) ∧
        ∀ i : Nat, i < j → e < (v + i * e - c) % 1440 := by
  intro f
  induction f with
  | zero =>
    intro v g hv0 hv1 h
    have hw : (v - c) % 1440 ≤ e := by
      rcases h with h | h
      · exact h
      · simp at h
        omega
    refine ⟨0, le_refl _, ?_, ?_, Or.inl rfl, ?_⟩
    · rw [searchLoop_zero]
      simp [Int.emod_eq_of_lt hv0 hv1]
    · simpa using hw
    · intro i hi
      omega
  | succ n ih =>
    intro v g hv0 hv1 h
    rcases le_or_lt ((v - c) % 1440) e with hw | hw
    · refine ⟨0, Nat.zero_le _, ?_, ?_, Or.inl rfl, ?_⟩
      · rw [searchLoop_stop c e v _ g hc0 hc1 hv0 hv1 hw]
        simp [Int.emod_eq_of_lt hv0 hv1]
      · simpa using hw
      · intro i hi
        omega
    · have hmul : ((n : Int) + 1) * e = n * e + e := by ring
      have hw2 : 1440 ≤ (v - c) % 1440 + (n * e + e) := by
        rcases h with h | h
        · omega
        · push_cast at h
          rw [hmul] at h
          exact h
      have he2 : e < 1440 := by omega
      have ev : jsAdd v e = v + e := roundDouble_small _ (by omega) (by omega)
      clear h
      obtain ⟨j, hj, hrun, hle, hbound, hmin⟩ := ih ((v + e) % 1440) (g + 1) (by omega)
        (by omega) (by
          rcases le_or_lt 1440 ((v - c) % 1440 + e) with h3 | h3
          · left
            omega
          · right
            omega)
      have hmul2 : ((j : Int) + 1) * e = j * e + e := by ring
      refine ⟨j + 1, by omega, ?_, ?_, Or.inr ?_, ?_⟩
      · rw [searchLoop_step c e v n g hc0 hc1 hv0 hv1 hw, ev, hrun]
        push_cast
        rw [hmul2]
        congr 2
        · congr 1
          omega
        · omega
      · push_cast
        rw [hmul2]
        have : ((v + e) % 1440 + j * e - c) % 1440 = (v + (j * e + e) - c) % 1440 := by
          omega
        rw [← this]
        exact hle
      · have e0 : ((j : Int) + 1 - 1) * e = j * e := by ring
        push_cast
        rw [e0]
        cases j with
        | zero =>
          simp
          omega
        | succ k =>
          have h5 := hmin 0 (by omega)
          simp only [Nat.cast_zero, zero_mul, add_zero] at h5
          have hb : ((v + e) % 1440 - c) % 1440 + (((k + 1 : Nat) : Int) - 1) * e < 1440 := by
            rcases hbound with h0 | hb
            · omega
            · exact hb
          have e1 : (((k + 1 : Nat) : Int) - 1) * e = k * e := by
            push_cast
            ring
          have e2 : ((k + 1 : Nat) : Int) * e = k * e + e := by
            push_cast
            ring
          rw [e1] at hb
          rw [e2]
          omega
      · intro i hi
        cases i with
        | zero => simpa using hw
        | succ k =>
          have h5 := hmin k (by omega)
          push_cast
          have hmul4 : ((k : Int) + 1) * e = k * e + e := by ring
          rw [hmul4]
          have : ((v + e) % 1440 + k * e - c) % 1440 = (v + (k * e + e) - c) % 1440 := by
            omega
          rw [← this]
          exact h5

theorem nextDose_of_searchLoop (c v : Int) (start : String) (everyHours : Int) (k : Nat)
    (hc0 : 0 ≤ c) (hc1 : c < 1440) (hv0 : 0 ≤ v) (hv1 : v < 1440)
    (h : searchLoop (hhmmOfMinute c) (jsMul everyHours 60) 50 start 0
      = some (hhmmOfMinute v, k)) :
    nextDoseEveryHours (hhmmOfMinute c) start everyHours none
      = some { next := hhmmOfMinute v, mins := (v - c) % 1440 } := by
  simp only [nextDoseEveryHours, h, Option.bind_eq_bind, Option.some_bind,
    minutesBetween_hhmmOfMinute c v hc0 hc1 hv0 hv1, Option.pure_def]

/-! ### Interval medications: claims C4, C5 -/

/-- C4 fails on the code at `start = "08:00"`, `everyHours = 6`, current time
`"02:00"`, `lastTaken` unset: `"02:00"` is the grid slot `start + 3 * 360`
minutes and is `0` minutes away, yet the result is `next = "08:00"` with
`mins = 360`, because the loop accepts the first candidate at distance
`≤ everyMin` rather than `< everyMin`. -/
theorem nextDose_skips_due_slot :
    nextDoseEveryHours "02:00" "08:00" 6 none = some { next := "08:00", mins := 360 } ∧
    addMinutes "08:00" (3 * (6 * 60)) = some "02:00" ∧
    minutesBetween "02:00" "02:00" = some 0 ∧
    minutesBetween "02:00" "08:00" = some 360 := by
  decide

/-- C5: with `lastTaken` unset, a positive `everyHours` and valid start and
current times, the loop of `nextDoseEveryHours` leaves with its condition
`minutesBetween clock candidate > everyMin` false after `k < 50` iterations:
`next` is the well-formed print of `(start + k * everyHours * 60) mod 1440`,
`mins = minutesBetween clock next` and `mins ≤ everyHours * 60`.  With start
`"08:00"` and `everyHours = 6` the result is `"08:00"`, `0` at `"08:00"` and
`"14:00"`, `240` at `"10:00"`. -/
theorem nextDose_search_exits (clock start : String) (everyHours : Int)
    (hc : validHHMM clock = true) (hs : validHHMM start = true) (hE : 0 < everyHours) :
    (∃ (k : Nat) (s : Int) (d : Dose), k < 50 ∧ minuteOfDay start = some s ∧
      searchLoop clock (jsMul everyHours 60) 50 start 0 = some (d.next, k) ∧
      nextDoseEveryHours clock start everyHours none = some d ∧
      validHHMM d.next = true ∧
      minuteOfDay d.next = some ((s + k * (everyHours * 60)) % 1440) ∧
      minutesBetween clock d.next = some d.mins ∧
      ¬ (d.mins > jsMul everyHours 60) ∧ d.mins ≤ everyHours * 60) ∧
    nextDoseEveryHours "08:00" "08:00" 6 none = some { next := "08:00", mins := 0 } ∧
    nextDoseEveryHours "10:00" "08:00" 6 none = some { next := "14:00", mins := 240 } := by
  refine ⟨?_, by decide, by decide⟩
  obtain ⟨c, hc0, hc1, rfl⟩ := validHHMM_eq_int clock hc
  obtain ⟨s, hs0, hs1, rfl⟩ := validHHMM_eq_int start hs
  have he60 : 60 ≤ jsMul everyHours 60 :=
    roundDouble_ge_of_ge _ 60 (by omega) (by omega) (by omega)
  obtain ⟨j, hj, hrun, hle, hbound, hmin⟩ :=
    searchLoop_spec c (jsMul everyHours 60) hc0 hc1 (by omega) 50 s 0 hs0 hs1
      (Or.inr (by
        have : 0 ≤ (s - c) % 1440 := by omega
        push_cast
        omega))
  have hm0 : 0 ≤ (s + j * jsMul everyHours 60) % 1440 := by omega
  have hm1 : (s + j * jsMul everyHours 60) % 1440 < 1440 := by omega
  have hj50 : j < 50 := by
    rcases hbound with h0 | hb
    · omega
    · by_contra hcon
      have h1 : (50 : Int) ≤ j := by omega
      have h2 : 0 ≤ (s - c) % 1440 := by omega
      nlinarith
  have hmod : (s + j * jsMul everyHours 60) % 1440 = (s + j * (everyHours * 60)) % 1440 := by
    rcases lt_or_le (everyHours * 60) 1440 with h1 | h1
    · rw [jsMul, roundDouble_small _ (by omega) (by omega)]
    · have h2 : 1440 ≤ jsMul everyHours 60 :=
        roundDouble_ge_of_ge _ 1440 (by omega) (by omega) h1
      have hj0 : j = 0 := by
        by_contra hcon
        have h3 := hmin 0 (by omega)
        simp only [Nat.cast_zero, zero_mul, add_zero] at h3
        omega
      subst hj0
      simp
  have hmins : (s + j * jsMul everyHours 60 - c) % 1440 ≤ everyHours * 60 := by
    rcases lt_or_le (everyHours * 60) 1440 with h1 | h1
    · have e1 : jsMul everyHours 60 = everyHours * 60 :=
        roundDouble_small _ (by omega) (by omega)
      rw [e1] at hle ⊢
      exact hle
    · omega
  refine ⟨j, s, Dose.mk (hhmmOfMinute ((s + j * jsMul everyHours 60) % 1440))
      (((s + j * jsMul everyHours 60) % 1440 - c) % 1440), hj50,
    minuteOfDay_hhmmOfMinute s hs0 hs1, ?_, ?_, ?_, ?_, ?_, ?_, ?_⟩
  · simpa using hrun
  · exact nextDose_of_searchLoop c _ _ everyHours j hc0 hc1 hm0 hm1 (by simpa using hrun)
  · exact validHHMM_hhmmOfMinute_int _ hm0 hm1
  · rw [minuteOfDay_hhmmOfMinute _ hm0 hm1, hmod]
  · exact minutesBetween_hhmmOfMinute c _ hc0 hc1 hm0 hm1
  · simp only [gt_iff_lt, not_lt]
    omega
  · simp only
    omega

/-- C5 at current time `"23:10"`, start `"09:00"`, `everyHours = 5`. -/
theorem nextDose_search_exits_witness :
    validHHMM "23:10" = true ∧ validHHMM "09:00" = true ∧ (0 : Int) < 5 ∧
    ((∃ (k : Nat) (s : Int) (d : Dose), k < 50 ∧ minuteOfDay "09:00" = some s ∧
      searchLoop "23:10" (jsMul 5 60) 50 "09:00" 0 = some (d.next, k) ∧
      nextDoseEveryHours "23:10" "09:00" 5 none = some d ∧
      validHHMM d.next = true ∧
      minuteOfDay d.next = some ((s + k * (5 * 60)) % 1440) ∧
      minutesBetween "23:10" d.next = some d.mins ∧
      ¬ (d.mins > jsMul 5 60) ∧ d.mins ≤ 5 * 60) ∧
    nextDoseEveryHours "08:00" "08:00" 6 none = some { next := "08:00", mins := 0 } ∧
    nextDoseEveryHours "10:00" "08:00" 6 none = some { next := "14:00", mins := 240 }) :=
  ⟨by decide, by decide, by decide,
    nextDose_search_exits "23:10" "09:00" 5 (by decide) (by decide) (by decide)⟩

/-- Away from the boundary of C4 the claim holds: for `everyHours` a positive
divisor of 24 and valid times, when the start is not exactly `everyHours * 60`
minutes after the clock (or `everyHours = 24`), the result is the slot
`start + j * everyHours * 60` whose distance `mins` from the clock is the least
over the whole grid; when the start is exactly `everyHours * 60 < 1440` minutes
after the clock, the result is `start` with `mins = everyHours * 60`. -/
theorem nextDose_grid_slot (clock start : String) (everyHours : Int)
    (hc : validHHMM clock = true) (hs : validHHMM start = true) (hE : 0 < everyHours)
    (hdiv : everyHours ∣ 24) :
    ∃ (c s : Int) (d : Dose) (j : Nat),
      minuteOfDay clock = some c ∧ minuteOfDay start = some s ∧
      nextDoseEveryHours clock start everyHours none = some d ∧
      d.next = hhmmOfMinute ((s + j * (everyHours * 60)) % 1440) ∧
      d.mins = (s + j * (everyHours * 60) - c) % 1440 ∧
      (((s - c) % 1440 ≠ everyHours * 60 ∨ everyHours = 24) →
        ∀ i : Nat, d.mins ≤ (s + i * (everyHours * 60) - c) % 1440) ∧
      ((s - c) % 1440 = everyHours * 60 → everyHours < 24 →
        d.next = start ∧ d.mins = everyHours * 60) := by
  obtain ⟨c, hc0, hc1, rfl⟩ := validHHMM_eq_int clock hc
  obtain ⟨s, hs0, hs1, rfl⟩ := validHHMM_eq_int start hs
  have hle24 : everyHours ≤ 24 := Int.le_of_dvd (by omega) hdiv
  have he : jsMul everyHours 60 = everyHours * 60 :=
    roundDouble_small _ (by omega) (by omega)
  obtain ⟨j, hj, hrun, hle, -, hmin⟩ :=
    searchLoop_spec c (everyHours * 60) hc0 hc1 (by omega) 50 s 0 hs0 hs1
      (Or.inr (by
        have : 0 ≤ (s - c) % 1440 := by omega
        push_cast
        omega))
  have hm0 : 0 ≤ (s + j * (everyHours * 60)) % 1440 := by omega
  have hm1 : (s + j * (everyHours * 60)) % 1440 < 1440 := by omega
  have hd := nextDose_of_searchLoop c _ (hhmmOfMinute s) everyHours j hc0 hc1 hm0 hm1
    (by rw [he]; simpa using hrun)
  have hmins : ((s + j * (everyHours * 60)) % 1440 - c) % 1440
      = (s + j * (everyHours * 60) - c) % 1440 := by omega
  refine ⟨c, s, _, j, minuteOfDay_hhmmOfMinute c hc0 hc1, minuteOfDay_hhmmOfMinute s hs0 hs1,
    hd, rfl, hmins, ?_, ?_⟩
  · intro hne i
    simp only [hmins]
    cases j with
    | zero =>
      simp only [Nat.cast_zero, zero_mul, add_zero] at hle ⊢
      have hi : ((i : Int) * (everyHours * 60)) = (i * 60) * everyHours := by ring
      rw [hi]
      generalize (i : Int) * 60 = q at *
      interval_cases everyHours <;> omega
    | succ k =>
      have h1 := hmin k (by omega)
      have e1 : ((k + 1 : Nat) : Int) * (everyHours * 60)
          = ((k : Int) * 60) * everyHours + everyHours * 60 := by
        push_cast
        ring
      have e2 : (k : Int) * (everyHours * 60) = ((k : Int) * 60) * everyHours := by ring
      have hi : ((i : Int) * (everyHours * 60)) = (i * 60) * everyHours := by ring
      rw [e1] at hle ⊢
      rw [e2] at h1
      rw [hi]
      generalize (i : Int) * 60 = q at *
      generalize (k : Int) * 60 = r at *
      interval_cases everyHours <;> omega
  · intro heq hlt
    have hj0 : j = 0 := by
      by_contra hcon
      have h1 := hmin 0 (by omega)
      simp only [Nat.cast_zero, zero_mul, add_zero] at h1
      omega
    subst hj0
    simp only [Nat.cast_zero, zero_mul, add_zero, Int.emod_eq_of_lt hs0 hs1]
    refine ⟨trivial, ?_⟩
    omega

/-! ### Sorting -/

theorem compareMins_le_iff (x y : Item) : compareMins x y ≤ 0 ↔ x.mins ≤ y.mins := by
  rw [compareMins, jsSub, roundDouble_nonpos_iff]
  omega

theorem insertItem_perm (x : Item) (l : List Item) : (insertItem x l).Perm (x :: l) := by
  induction l with
  | nil => exact List.Perm.refl _
  | cons y ys ih =>
    unfold insertItem
    split
    · exact List.Perm.refl _
    · exact (List.Perm.cons y ih).trans (List.Perm.swap x y ys)

theorem sortItems_perm (l : List Item) : (sortItems l).Perm l := by
  induction l with
  | nil => exact List.Perm.refl _
  | cons x xs ih => exact (insertItem_perm x (sortItems xs)).trans (List.Perm.cons x ih)

theorem insertItem_sorted (x : Item) (l : List Item)
    (h : l.Pairwise (fun a b => a.mins ≤ b.mins)) :
    (insertItem x l).Pairwise (fun a b => a.mins ≤ b.mins) := by
  induction l with
  | nil => simp [insertItem]
  | cons y ys ih =>
    rw [List.pairwise_cons] at h
    unfold insertItem
    split
    · rename_i hxy
      rw [compareMins_le_iff] at hxy
      refine List.pairwise_cons.2 ⟨?_, List.pairwise_cons.2 h⟩
      intro z hz
      rcases List.mem_cons.1 hz with rfl | hz
      · exact hxy
      · exact le_trans hxy (h.1 z hz)
    · rename_i hxy
      rw [compareMins_le_iff] at hxy
      refine List.pairwise_cons.2 ⟨?_, ih h.2⟩
      intro z hz
      rcases List.mem_cons.1 ((insertItem_perm x ys).subset hz) with rfl | hz
      · omega
      · exact h.1 z hz

theorem sortItems_sorted (l : List Item) :
    (sortItems l).Pairwise (fun a b => a.mins ≤ b.mins) := by
  induction l with
  | nil => simp [sortItems]
  | cons x xs ih => exact insertItem_sorted x _ ih

theorem insertItem_filter (x : Item) (l : List Item) (k : Int) :
    (insertItem x l).filter (fun a => decide (a.mins = k))
      = (x :: l).filter (fun a => decide (a.mins = k)) := by
  induction l with
  | nil => rfl
  | cons y ys ih =>
    unfold insertItem
    split
    · rfl
    · rename_i hxy
      rw [compareMins_le_iff] at hxy
      rw [List.filter_cons, ih]
      by_cases hx : x.mins = k
      · have hy : ¬ y.mins = k := by omega
        simp [List.filter_cons, hx, hy]
      · simp [List.filter_cons, hx]

theorem sortItems_filter (l : List Item) (k : Int) :
    (sortItems l).filter (fun a => decide (a.mins = k))
      = l.filter (fun a => decide (a.mins = k)) := by
  induction l with
  | nil => rfl
  | cons x xs ih =>
    rw [sortItems, insertItem_filter, List.filter_cons, List.filter_cons, ih]

theorem insertItem_map (f : Item → Item) (hf : ∀ a, (f a).mins = a.mins) (x : Item)
    (l : List Item) : insertItem (f x) (l.map f) = (insertItem x l).map f := by
  induction l with
  | nil => rfl
  | cons y ys ih =>
    simp only [List.map_cons, insertItem, compareMins, hf]
    split
    · rfl
    · rw [ih]
      rfl

theorem sortItems_map (f : Item → Item) (hf : ∀ a, (f a).mins = a.mins) (l : List Item) :
    sortItems (l.map f) = (sortItems l).map f := by
  induction l with
  | nil => rfl
  | cons x xs ih =>
    rw [List.map_cons, sortItems, ih, insertItem_map f hf, sortItems]

/-! ### The deriver is defined on valid plans -/

theorem searchLoop_total (c e : Int) (hc0 : 0 ≤ c) (hc1 : c < 1440) :
    ∀ (f : Nat) (v : Int) (g : Nat), 0 ≤ v → v < 1440 →
      ∃ (v' : Int) (k : Nat), 0 ≤ v' ∧ v' < 1440 ∧
        searchLoop (hhmmOfMinute c) e f (hhmmOfMinute v) g = some (hhmmOfMinute v', k) := by
  intro f
  induction f with
  | zero =>
    intro v g hv0 hv1
    exact ⟨v, g, hv0, hv1, rfl⟩
  | succ n ih =>
    intro v g hv0 hv1
    rcases le_or_lt ((v - c) % 1440) e with hw | hw
    · exact ⟨v, g, hv0, hv1, searchLoop_stop c e v _ g hc0 hc1 hv0 hv1 hw⟩
    · rw [searchLoop_step c e v n g hc0 hc1 hv0 hv1 hw]
      exact ih _ _ (by omega) (by omega)

theorem hhmmOfMinute_of_parts (h m : Int) (hh0 : 0 ≤ h) (hm0 : 0 ≤ m) (hm1 : m ≤ 59) :
    pad2 h ++ ":" ++ pad2 m = hhmmOfMinute (60 * h + m) := by
  have e1 : (60 * h + m) / 60 = h := by omega
  have e2 : jsMod (60 * h + m) 60 = m := by
    rw [jsMod, Int.tmod_eq_emod (by omega) (by omega)]
    omega
  rw [hhmmOfMinute, e1, e2]

theorem nextDose_total (clock : String) (m : Medication) (hc : validHHMM clock = true)
    (hm : m.valid = true) :
    ∃ d : Dose, nextDoseEveryHours clock m.start m.everyHours m.lastTaken = some d := by
  obtain ⟨c, hc0, hc1, rfl⟩ := validHHMM_eq_int clock hc
  simp only [Medication.valid, Bool.and_eq_true] at hm
  obtain ⟨hs, hl⟩ := hm
  cases hlt : m.lastTaken with
  | none =>
    obtain ⟨s, hs0, hs1, hse⟩ := validHHMM_eq_int m.start hs
    obtain ⟨v', k, hv0, hv1, hrun⟩ :=
      searchLoop_total c (jsMul m.everyHours 60) hc0 hc1 50 s 0 hs0 hs1
    rw [hse]
    exact ⟨_, nextDose_of_searchLoop c v' _ m.everyHours k hc0 hc1 hv0 hv1 hrun⟩
  | some d =>
    rw [hlt] at hl
    simp only [Bool.and_eq_true, decide_eq_true_eq] at hl
    obtain ⟨⟨⟨h1, h2⟩, h3⟩, h4⟩ := hl
    have hv0 : 0 ≤ 60 * d.hours + d.minutes := by omega
    have hv1 : 60 * d.hours + d.minutes < 1440 := by omega
    simp only [nextDoseEveryHours, hhmmOfMinute_of_parts d.hours d.minutes h1 h3 h4,
      addMinutes_hhmmOfMinute _ _ hv0 hv1, Option.bind_eq_bind, Option.some_bind,
      Option.pure_def]
    rw [minutesBetween_hhmmOfMinute c _ hc0 hc1 (by omega) (by omega)]
    exact ⟨_, rfl⟩

theorem collect_append (l1 l2 : List (Option Item)) (a b : List Item)
    (h1 : collect l1 = some a) (h2 : collect l2 = some b) :
    collect (l1 ++ l2) = some (a ++ b) := by
  induction l1 generalizing a with
  | nil =>
    simp only [collect, Option.some.injEq] at h1
    subst h1
    simpa using h2
  | cons x xs ih =>
    cases x with
    | none => simp [collect] at h1
    | some y =>
      cases hxs : collect xs with
      | none => simp [collect, hxs] at h1
      | some ys =>
        simp only [collect, hxs, Option.bind_eq_bind, Option.some_bind, Option.pure_def,
          Option.some.injEq] at h1
        subst h1
        simp [collect, ih ys hxs]

theorem collect_slots (g : String → Option Item) (pre : String) (ts : List String)
    (h : ∀ t ∈ ts, ∃ it, g t = some it ∧ it.id = pre ++ t) :
    ∃ l, collect (ts.map g) = some l ∧ l.map (fun x => x.id) = ts.map (fun t => pre ++ t) := by
  induction ts with
  | nil => exact ⟨[], rfl, rfl⟩
  | cons t ts ih =>
    obtain ⟨it, hit, hid⟩ := h t (List.mem_cons_self _ _)
    obtain ⟨l, hl, hids⟩ := ih (fun u hu => h u (List.mem_cons_of_mem _ hu))
    refine ⟨it :: l, ?_, ?_⟩
    · simp [collect, hit, hl]
    · simp [hid, hids]

theorem corsodylItem_total (today clock : String) (task : TimedTask) (t : String)
    (hc : validHHMM clock = true) (ht : validHHMM t = true) :
    ∃ it, corsodylItem today clock task t = some it ∧ it.id = "corsodyl_" ++ t := by
  obtain ⟨c, hc0, hc1, rfl⟩ := validHHMM_eq_int clock hc
  obtain ⟨v, hv0, hv1, rfl⟩ := validHHMM_eq_int t ht
  simp only [corsodylItem, minutesBetween_hhmmOfMinute c v hc0 hc1 hv0 hv1,
    Option.bind_eq_bind, Option.some_bind, Option.pure_def]
  exact ⟨_, rfl, rfl⟩

theorem rinseItem_total (today clock : String) (task : TimedTask) (t : String)
    (hc : validHHMM clock = true) (ht : validHHMM t = true) :
    ∃ it, rinseItem today clock task t = some it ∧ it.id = "rinse_" ++ t := by
  obtain ⟨c, hc0, hc1, rfl⟩ := validHHMM_eq_int clock hc
  obtain ⟨v, hv0, hv1, rfl⟩ := validHHMM_eq_int t ht
  simp only [rinseItem, minutesBetween_hhmmOfMinute c v hc0 hc1 hv0 hv1,
    Option.bind_eq_bind, Option.some_bind, Option.pure_def]
  exact ⟨_, rfl, rfl⟩

/-- The sequence of ids the `schedule` memo pushes, in program order. -/
theorem buildItems_total (p : Plan) (today clock : String) (hp : p.valid = true)
    (hc : validHHMM clock = true) :
    ∃ items, buildItems p today clock = some items ∧
      items.map (fun x => x.id) =
        (if p.paracetamol.enabled then ["paracetamol"] else []) ++
        (if p.ibuprofen.enabled then ["ibuprofen"] else []) ++
        (if p.corsodyl.enabled then p.corsodyl.times.map (fun t => "corsodyl_" ++ t) else []) ++
        (if p.rinse.enabled then p.rinse.times.map (fun t => "rinse_" ++ t) else []) := by
  simp only [Plan.valid, Bool.and_eq_true, List.all_eq_true] at hp
  obtain ⟨⟨⟨hpa, hib⟩, hco⟩, hri⟩ := hp
  have h1 : ∃ l, collect (if p.paracetamol.enabled then
        [paracetamolItem clock p.paracetamol] else []) = some l ∧
      l.map (fun x => x.id) = (if p.paracetamol.enabled then ["paracetamol"] else []) := by
    obtain ⟨d, hd⟩ := nextDose_total clock p.paracetamol hc hpa
    by_cases hen : p.paracetamol.enabled = true
    · simp only [hen, if_true, collect, paracetamolItem, hd, Option.bind_eq_bind,
        Option.some_bind, Option.pure_def]
      exact ⟨_, rfl, rfl⟩
    · simp only [hen]
      exact ⟨[], rfl, rfl⟩
  have h2 : ∃ l, collect (if p.ibuprofen.enabled then
        [ibuprofenItem clock p.ibuprofen] else []) = some l ∧
      l.map (fun x => x.id) = (if p.ibuprofen.enabled then ["ibuprofen"] else []) := by
    obtain ⟨d, hd⟩ := nextDose_total clock p.ibuprofen hc hib
    by_cases hen : p.ibuprofen.enabled = true
    · simp only [hen, if_true, collect, ibuprofenItem, hd, Option.bind_eq_bind,
        Option.some_bind, Option.pure_def]
      exact ⟨_, rfl, rfl⟩
    · simp only [hen]
      exact ⟨[], rfl, rfl⟩
  have h3 : ∃ l, collect (if p.corsodyl.enabled then
        p.corsodyl.times.map (corsodylItem today clock p.corsodyl) else []) = some l ∧
      l.map (fun x => x.id) = (if p.corsodyl.enabled then
        p.corsodyl.times.map (fun t => "corsodyl_" ++ t) else []) := by
    split
    · exact collect_slots _ _ _
        (fun t ht => corsodylItem_total today clock p.corsodyl t hc (hco t ht))
    · exact ⟨[], rfl, rfl⟩
  have h4 : ∃ l, collect (if p.rinse.enabled then
        p.rinse.times.map (rinseItem today clock p.rinse) else []) = some l ∧
      l.map (fun x => x.id) = (if p.rinse.enabled then
        p.rinse.times.map (fun t => "rinse_" ++ t) else []) := by
    split
    · exact collect_slots _ _ _
        (fun t ht => rinseItem_total today clock p.rinse t hc (hri t ht))
    · exact ⟨[], rfl, rfl⟩
  obtain ⟨l1, e1, i1⟩ := h1
  obtain ⟨l2, e2, i2⟩ := h2
  obtain ⟨l3, e3, i3⟩ := h3
  obtain ⟨l4, e4, i4⟩ := h4
  refine ⟨l1 ++ l2 ++ l3 ++ l4, ?_, ?_⟩
  · unfold buildItems pushes
    exact collect_append _ _ _ _ (collect_append _ _ _ _ (collect_append _ _ _ _ e1 e2) e3) e4
  · rw [List.map_append, List.map_append, List.map_append, i1, i2, i3, i4]

/-! ### The derived schedule: claim C6 -/

/-- C6, as stated, fails: clearing the first corsodyl time input of the default
plan stores the empty string, `"".split(":")` has the single field `""`, the
minutes are `undefined` and `minutesBetween` is `NaN`; the slot has no numeric
`mins`, so the derived schedule is no list ascending in `mins`. -/
theorem schedule_cleared_slot_counterexample :
    clearedSlotPlan.corsodyl.enabled = true ∧
    clearedSlotPlan.corsodyl.times = ["", "21:00"] ∧
    (splitColon "".data).map Number = [some 0] ∧
    minutesBetween "10:00" "" = none ∧
    corsodylItem "2025-01-15" "10:00" clearedSlotPlan.corsodyl "" = none ∧
    buildItems clearedSlotPlan "2025-01-15" "10:00" = none ∧
    schedule clearedSlotPlan "2025-01-15" "10:00" = none := by
  decide

/-- C6, amended: for a plan whose start times and time slots are valid `"HH:MM"`
strings, whose stored `lastTaken` reads as a time of day and whose products
`everyHours * 60` are finite doubles, and for a valid current time, the intervals
in minutes are finite numbers, the items are constructed in the order
paracetamol, ibuprofen, corsodyl slots in config order, rinse slots in config
order (enabled sections only), and the derived schedule is a permutation of them,
ascending in `mins`, in which the items of equal `mins` keep their construction
order. -/
theorem schedule_sorted_stable (p : Plan) (today clock : String) (hp : p.valid = true)
    (hfin : p.finiteIntervals = true) (hc : validHHMM clock = true) :
    (jsMul p.paracetamol.everyHours 60).natAbs < 2 ^ 54 * 2 ^ 970 ∧
    (jsMul p.ibuprofen.everyHours 60).natAbs < 2 ^ 54 * 2 ^ 970 ∧
    ∃ items sched, buildItems p today clock = some items ∧
      schedule p today clock = some sched ∧
      items.map (fun x => x.id) =
        (if p.paracetamol.enabled then ["paracetamol"] else []) ++
        (if p.ibuprofen.enabled then ["ibuprofen"] else []) ++
        (if p.corsodyl.enabled then p.corsodyl.times.map (fun t => "corsodyl_" ++ t) else []) ++
        (if p.rinse.enabled then p.rinse.times.map (fun t => "rinse_" ++ t) else []) ∧
      sched.Perm items ∧
      sched.Pairwise (fun a b => a.mins ≤ b.mins) ∧
      ∀ k : Int, sched.filter (fun a => decide (a.mins = k))
        = items.filter (fun a => decide (a.mins = k)) := by
  simp only [Plan.finiteIntervals, Bool.and_eq_true] at hfin
  obtain ⟨items, hb, hids⟩ := buildItems_total p today clock hp hc
  refine ⟨roundDouble_finite _ hfin.1, roundDouble_finite _ hfin.2, items, sortItems items,
    hb, ?_, hids, sortItems_perm items, sortItems_sorted items, sortItems_filter items⟩
  simp [schedule, hb]

/-- C6 amended, at the default plan on `2025-01-15`, `10:00`. -/
theorem schedule_sorted_stable_witness :
    defaultPlan.valid = true ∧ defaultPlan.finiteIntervals = true ∧
    validHHMM "10:00" = true ∧
    schedule defaultPlan "2025-01-15" "10:00" = some scheduleAtTen ∧
    (jsMul defaultPlan.paracetamol.everyHours 60).natAbs < 2 ^ 54 * 2 ^ 970 ∧
    (jsMul defaultPlan.ibuprofen.everyHours 60).natAbs < 2 ^ 54 * 2 ^ 970 ∧
    ∃ items sched, buildItems defaultPlan "2025-01-15" "10:00" = some items ∧
      schedule defaultPlan "2025-01-15" "10:00" = some sched ∧
      items.map (fun x => x.id) =
        (if defaultPlan.paracetamol.enabled then ["paracetamol"] else []) ++
        (if defaultPlan.ibuprofen.enabled then ["ibuprofen"] else []) ++
        (if defaultPlan.corsodyl.enabled then
          defaultPlan.corsodyl.times.map (fun t => "corsodyl_" ++ t) else []) ++
        (if defaultPlan.rinse.enabled then
          defaultPlan.rinse.times.map (fun t => "rinse_" ++ t) else []) ∧
      sched.Perm items ∧
      sched.Pairwise (fun a b => a.mins ≤ b.mins) ∧
      ∀ k : Int, sched.filter (fun a => decide (a.mins = k))
        = items.filter (fun a => decide (a.mins = k)) :=
  ⟨by decide, by decide, by decide, by decide,
    schedule_sorted_stable defaultPlan "2025-01-15" "10:00" (by decide) (by decide)
      (by decide)⟩

/-! ### Marking a timed item done -/

theorem markedDone_mins (sec : Section) (key : String) (x : Item) :
    (markedDone sec key x).mins = x.mins := by
  unfold markedDone
  split <;> rfl

theorem markedDone_fields (sec : Section) (key : String) (x : Item) :
    (markedDone sec key x).id = x.id ∧ (markedDone sec key x).title = x.title ∧
    (markedDone sec key x).when = x.when ∧ (markedDone sec key x).mins = x.mins ∧
    (markedDone sec key x).type = x.type ∧ (markedDone sec key x).doneKey = x.doneKey ∧
    (markedDone sec key x).«section» = x.«section» := by
  unfold markedDone
  split <;> exact ⟨rfl, rfl, rfl, rfl, rfl, rfl, rfl⟩

theorem markDoneTimed_paracetamol (sec : Section) (key today : String) (p : Plan) :
    (markDoneTimed sec key today p).paracetamol = p.paracetamol := by
  unfold markDoneTimed bumpStreak setDone
  cases sec <;> split <;> rfl

theorem markDoneTimed_ibuprofen (sec : Section) (key today : String) (p : Plan) :
    (markDoneTimed sec key today p).ibuprofen = p.ibuprofen := by
  unfold markDoneTimed bumpStreak setDone
  cases sec <;> split <;> rfl

theorem markDoneTimed_task (sec sec' : Section) (key today : String) (p : Plan) :
    (markDoneTimed sec key today p).task sec' =
      if sec' = sec then
        { p.task sec with
          done := some (fun k => if k = key then some true
            else (p.task sec).done.getD (fun _ => none) k) }
      else p.task sec' := by
  unfold markDoneTimed bumpStreak setDone
  cases sec <;> cases sec' <;> split <;> rfl

theorem markDoneTimed_isDone (sec sec' : Section) (key today k : String) (p : Plan) :
    ((markDoneTimed sec key today p).task sec').isDone k =
      if sec' = sec ∧ k = key then true else (p.task sec').isDone k := by
  rw [markDoneTimed_task]
  by_cases hs : sec' = sec
  · subst hs
    by_cases hk : k = key
    · simp [TimedTask.isDone, hk]
    · cases hd : (p.task sec').done <;> simp [TimedTask.isDone, hk, hd]
  · simp [hs]

theorem markDoneTimed_enabled_times (sec sec' : Section) (key today : String) (p : Plan) :
    ((markDoneTimed sec key today p).task sec').enabled = (p.task sec').enabled ∧
    ((markDoneTimed sec key today p).task sec').times = (p.task sec').times := by
  rw [markDoneTimed_task]
  by_cases hs : sec' = sec
  · subst hs
    simp
  · simp [hs]

theorem paracetamolItem_marked (sec : Section) (key clock : String) (m : Medication) :
    (paracetamolItem clock m).map (markedDone sec key) = paracetamolItem clock m := by
  unfold paracetamolItem
  cases nextDoseEveryHours clock m.start m.everyHours m.lastTaken <;> simp [markedDone]

theorem ibuprofenItem_marked (sec : Section) (key clock : String) (m : Medication) :
    (ibuprofenItem clock m).map (markedDone sec key) = ibuprofenItem clock m := by
  unfold ibuprofenItem
  cases nextDoseEveryHours clock m.start m.everyHours m.lastTaken <;> simp [markedDone]

theorem corsodylItem_marked (sec : Section) (key today clock t : String)
    (task task' : TimedTask)
    (h : task'.isDone (today ++ "_" ++ t)
      = if Section.corsodyl = sec ∧ today ++ "_" ++ t = key then true
        else task.isDone (today ++ "_" ++ t)) :
    corsodylItem today clock task' t
      = (corsodylItem today clock task t).map (markedDone sec key) := by
  unfold corsodylItem
  cases minutesBetween clock t with
  | none => rfl
  | some mins =>
    simp only [Option.bind_eq_bind, Option.some_bind, Option.pure_def, Option.map_some', h,
      markedDone]
    by_cases hs : Section.corsodyl = sec
    · by_cases hk : today ++ "_" ++ t = key
      · simp [hs, hk]
      · simp [hs, hk]
    · have hs' : ¬ sec = Section.corsodyl := fun e => hs e.symm
      simp [hs, hs']

theorem rinseItem_marked (sec : Section) (key today clock t : String)
    (task task' : TimedTask)
    (h : task'.isDone (today ++ "_" ++ t)
      = if Section.rinse = sec ∧ today ++ "_" ++ t = key then true
        else task.isDone (today ++ "_" ++ t)) :
    rinseItem today clock task' t
      = (rinseItem today clock task t).map (markedDone sec key) := by
  unfold rinseItem
  cases minutesBetween clock t with
  | none => rfl
  | some mins =>
    simp only [Option.bind_eq_bind, Option.some_bind, Option.pure_def, Option.map_some', h,
      markedDone]
    by_cases hs : Section.rinse = sec
    · by_cases hk : today ++ "_" ++ t = key
      · simp [hs, hk]
      · simp [hs, hk]
    · have hs' : ¬ sec = Section.rinse := fun e => hs e.symm
      simp [hs, hs']

theorem collect_map (f : Item → Item) (l : List (Option Item)) :
    collect (l.map (Option.map f)) = (collect l).map (List.map f) := by
  induction l with
  | nil => rfl
  | cons x xs ih =>
    cases x with
    | none => rfl
    | some y =>
      simp only [List.map_cons, Option.map_some', collect, ih, Option.bind_eq_bind,
        Option.some_bind, Option.pure_def]
      cases collect xs <;> rfl

theorem pushes_marked (sec : Section) (key day today clock : String) (p : Plan) :
    pushes (markDoneTimed sec key day p) today clock
      = (pushes p today clock).map (Option.map (markedDone sec key)) := by
  have hc := markDoneTimed_enabled_times sec Section.corsodyl key day p
  have hr := markDoneTimed_enabled_times sec Section.rinse key day p
  have dc := fun k => markDoneTimed_isDone sec Section.corsodyl key day k p
  have dr := fun k => markDoneTimed_isDone sec Section.rinse key day k p
  simp only [Plan.task] at hc hr dc dr
  unfold pushes
  rw [markDoneTimed_paracetamol, markDoneTimed_ibuprofen, hc.1, hc.2, hr.1, hr.2]
  simp only [List.map_append]
  congr 1
  · congr 1
    · congr 1
      · split
        · simp [paracetamolItem_marked]
        · rfl
      · split
        · simp [ibuprofenItem_marked]
        · rfl
    · split
      · rw [List.map_map]
        apply List.map_congr_left
        intro t _
        exact corsodylItem_marked sec key today clock t _ _ (dc _)
      · rfl
  · split
    · rw [List.map_map]
      apply List.map_congr_left
      intro t _
      exact rinseItem_marked sec key today clock t _ _ (dr _)
    · rfl

theorem schedule_marked (sec : Section) (key day today clock : String) (p : Plan) :
    schedule (markDoneTimed sec key day p) today clock
      = (schedule p today clock).map (List.map (markedDone sec key)) := by
  unfold schedule buildItems
  rw [pushes_marked, collect_map]
  cases collect (pushes p today clock) with
  | none => rfl
  | some l =>
    simp only [Option.map_some']
    rw [sortItems_map _ (markedDone_mins sec key)]

theorem key_ne_of_date_ne (today other t t0 : String) (hlen : other.length = today.length)
    (hne : other ≠ today) : today ++ "_" ++ t ≠ other ++ "_" ++ t0 := by
  intro h
  apply hne
  have h2 := congrArg String.data h
  simp only [String.data_append, List.append_assoc] at h2
  have hl : today.data.length = other.data.length := hlen.symm
  have h3 := (List.append_inj h2 hl).1
  exact (String.ext h3).symm

theorem key_inj (today t t' : String) (h : today ++ "_" ++ t = today ++ "_" ++ t') :
    t = t' := by
  have h2 := congrArg String.data h
  simp only [String.data_append, List.append_assoc, List.append_cancel_left_eq] at h2
  exact String.ext h2

theorem corsodylItem_some (today clock t : String) (task : TimedTask) (x : Item)
    (h : corsodylItem today clock task t = some x) :
    x.doneKey = some (today ++ "_" ++ t) ∧ x.«section» = some Section.corsodyl := by
  unfold corsodylItem at h
  cases hm : minutesBetween clock t with
  | none => simp [hm] at h
  | some mins =>
    simp only [hm, Option.bind_eq_bind, Option.some_bind, Option.pure_def,
      Option.some.injEq] at h
    subst h
    exact ⟨rfl, rfl⟩

theorem rinseItem_some (today clock t : String) (task : TimedTask) (x : Item)
    (h : rinseItem today clock task t = some x) :
    x.doneKey = some (today ++ "_" ++ t) ∧ x.«section» = some Section.rinse := by
  unfold rinseItem at h
  cases hm : minutesBetween clock t with
  | none => simp [hm] at h
  | some mins =>
    simp only [hm, Option.bind_eq_bind, Option.some_bind, Option.pure_def,
      Option.some.injEq] at h
    subst h
    exact ⟨rfl, rfl⟩

theorem paracetamolItem_some (clock : String) (m : Medication) (x : Item)
    (h : paracetamolItem clock m = some x) : x.«section» = none := by
  unfold paracetamolItem at h
  cases hd : nextDoseEveryHours clock m.start m.everyHours m.lastTaken with
  | none => simp [hd] at h
  | some d =>
    simp only [hd, Option.bind_eq_bind, Option.some_bind, Option.pure_def,
      Option.some.injEq] at h
    subst h
    rfl

theorem ibuprofenItem_some (clock : String) (m : Medication) (x : Item)
    (h : ibuprofenItem clock m = some x) : x.«section» = none := by
  unfold ibuprofenItem at h
  cases hd : nextDoseEveryHours clock m.start m.everyHours m.lastTaken with
  | none => simp [hd] at h
  | some d =>
    simp only [hd, Option.bind_eq_bind, Option.some_bind, Option.pure_def,
      Option.some.injEq] at h
    subst h
    rfl

theorem mem_collect (l : List (Option Item)) (items : List Item) (x : Item)
    (h : collect l = some items) (hx : x ∈ items) : some x ∈ l := by
  induction l generalizing items with
  | nil =>
    simp only [collect, Option.some.injEq] at h
    subst h
    simp at hx
  | cons y ys ih =>
    cases y with
    | none => simp [collect] at h
    | some z =>
      cases hys : collect ys with
      | none => simp [collect, hys] at h
      | some zs =>
        simp only [collect, hys, Option.bind_eq_bind, Option.some_bind, Option.pure_def,
          Option.some.injEq] at h
        subst h
        rcases List.mem_cons.1 hx with rfl | hx
        · exact List.mem_cons_self _ _
        · exact List.mem_cons_of_mem _ (ih zs hys hx)

/-- A pushed item that belongs to a section is the item of one of its slots, and
its key is today's key of that slot. -/
theorem pushes_timed (p : Plan) (today clock : String) (x : Item) (sec : Section)
    (hx : some x ∈ pushes p today clock) (hsec : x.«section» = some sec) :
    ∃ t, x.doneKey = some (today ++ "_" ++ t) ∧
      ((sec = Section.corsodyl ∧ corsodylItem today clock p.corsodyl t = some x) ∨
       (sec = Section.rinse ∧ rinseItem today clock p.rinse t = some x)) := by
  unfold pushes at hx
  simp only [List.mem_append] at hx
  rcases hx with ((hx | hx) | hx) | hx
  · split at hx
    · simp only [List.mem_singleton] at hx
      have := paracetamolItem_some clock _ x hx.symm
      rw [this] at hsec
      cases hsec
    · simp at hx
  · split at hx
    · simp only [List.mem_singleton] at hx
      have := ibuprofenItem_some clock _ x hx.symm
      rw [this] at hsec
      cases hsec
    · simp at hx
  · split at hx
    · obtain ⟨t, -, ht⟩ := List.mem_map.1 hx
      have h2 := corsodylItem_some today clock t _ x ht
      rw [h2.2] at hsec
      cases hsec
      exact ⟨t, h2.1, Or.inl ⟨rfl, ht⟩⟩
    · simp at hx
  · split at hx
    · obtain ⟨t, -, ht⟩ := List.mem_map.1 hx
      have h2 := rinseItem_some today clock t _ x ht
      rw [h2.2] at hsec
      cases hsec
      exact ⟨t, h2.1, Or.inr ⟨rfl, ht⟩⟩
    · simp at hx

theorem schedule_mem (p : Plan) (today clock : String) (items : List Item) (x : Item)
    (h : schedule p today clock = some items) (hx : x ∈ items) :
    some x ∈ pushes p today clock := by
  unfold schedule buildItems at h
  cases hc : collect (pushes p today clock) with
  | none => simp [hc] at h
  | some l =>
    simp only [hc, Option.map_some', Option.some.injEq] at h
    subst h
    exact mem_collect _ l x hc ((sortItems_perm l).subset hx)

/-- Two schedule items with the same section and done-key are the same item. -/
theorem schedule_item_unique (p : Plan) (today clock : String) (items : List Item)
    (x y : Item) (sec : Section) (key : String)
    (h : schedule p today clock = some items) (hx : x ∈ items) (hy : y ∈ items)
    (hxs : x.«section» = some sec) (hxk : x.doneKey = some key)
    (hys : y.«section» = some sec) (hyk : y.doneKey = some key) : x = y := by
  obtain ⟨t, ht, hxt⟩ := pushes_timed p today clock x sec (schedule_mem p today clock items x h hx) hxs
  obtain ⟨u, hu, hyu⟩ := pushes_timed p today clock y sec (schedule_mem p today clock items y h hy) hys
  rw [hxk] at ht
  rw [hyk] at hu
  have htu : t = u := key_inj today t u (by
    have := ht.symm.trans hu
    exact Option.some.inj this)
  subst htu
  rcases hxt with ⟨hs1, e1⟩ | ⟨hs1, e1⟩ <;> rcases hyu with ⟨hs2, e2⟩ | ⟨hs2, e2⟩
  · exact Option.some.inj (e1.symm.trans e2)
  · rw [hs1] at hs2
    cases hs2
  · rw [hs1] at hs2
    cases hs2
  · exact Option.some.inj (e1.symm.trans e2)

theorem pushes_marked_id (sec : Section) (key today clock : String) (p : Plan)
    (hk : ∀ t, today ++ "_" ++ t ≠ key) :
    (pushes p today clock).map (Option.map (markedDone sec key)) = pushes p today clock := by
  unfold pushes
  simp only [List.map_append]
  congr 1
  · congr 1
    · congr 1
      · split
        · simp [paracetamolItem_marked]
        · rfl
      · split
        · simp [ibuprofenItem_marked]
        · rfl
    · split
      · rw [List.map_map]
        conv_rhs => rw [← List.map_id (List.map _ _)]
        rw [List.map_map]
        apply List.map_congr_left
        intro t _
        exact (corsodylItem_marked sec key today clock t _ _ (by simp [hk t])).symm
      · rfl
  · split
    · rw [List.map_map]
      conv_rhs => rw [← List.map_id (List.map _ _)]
      rw [List.map_map]
      apply List.map_congr_left
      intro t _
      exact (rinseItem_marked sec key today clock t _ _ (by simp [hk t])).symm
    · rfl

theorem schedule_other_key (sec : Section) (key day today clock : String) (p : Plan)
    (hk : ∀ t, today ++ "_" ++ t ≠ key) :
    schedule (markDoneTimed sec key day p) today clock = schedule p today clock := by
  unfold schedule buildItems
  rw [pushes_marked, pushes_marked_id sec key today clock p hk]

/-! ### Completion does not move items: claim C7 -/

theorem schedule_default_at_ten :
    schedule defaultPlan "2025-01-15" "10:00" = some scheduleAtTen := by
  decide

theorem schedule_default_marked_at_ten :
    schedule (markDoneTimed Section.rinse "2025-01-15_10:30" "2025-01-15" defaultPlan)
        "2025-01-15" "10:00"
      = some ({ rinseAtTen with subtitle := "DONE ✅" } :: scheduleAtTen.tail) := by
  decide

/-- C7: let `it` be a timed item of the schedule derived from `p` at `today`,
`clock`.  After `markDoneTimed it.section it.doneKey` the schedule derived at the
same date and time has the same items in the same order with the same `id`,
`when`, `mins` and `doneKey`; every item other than `it` is unchanged and `it`
differs in its subtitle only, which is the done marker.  Marking a key of another
date (on any day) leaves the derived schedule unchanged.  For the default plan at
`10:00` the slot `"10:30"` has `mins = 30` and subtitle `3X/DAY` before, `mins = 30`
and the done marker after. -/
theorem markDone_rederive (p : Plan) (today clock : String) (items : List Item) (it : Item)
    (sec : Section) (key : String)
    (h : schedule p today clock = some items) (hit : it ∈ items)
    (hsec : it.«section» = some sec) (hkey : it.doneKey = some key) :
    schedule (markDoneTimed sec key today p) today clock
      = some (items.map (markedDone sec key)) ∧
    (items.map (markedDone sec key)).map (fun x => (x.id, x.when, x.mins, x.doneKey))
      = items.map (fun x => (x.id, x.when, x.mins, x.doneKey)) ∧
    (∀ x ∈ items, x ≠ it → markedDone sec key x = x) ∧
    markedDone sec key it = { it with subtitle := "DONE ✅" } ∧
    (∀ (other t0 day : String) (sec0 : Section), other.length = today.length →
      other ≠ today →
      schedule (markDoneTimed sec0 (other ++ "_" ++ t0) day p) today clock = some items) ∧
    (schedule defaultPlan "2025-01-15" "10:00" = some scheduleAtTen ∧
      rinseAtTen ∈ scheduleAtTen ∧ rinseAtTen.mins = 30 ∧ rinseAtTen.subtitle = "3X/DAY" ∧
      schedule (markDoneTimed Section.rinse "2025-01-15_10:30" "2025-01-15" defaultPlan)
          "2025-01-15" "10:00"
        = some ({ rinseAtTen with subtitle := "DONE ✅" } :: scheduleAtTen.tail)) := by
  refine ⟨?_, ?_, ?_, ?_, ?_, schedule_default_at_ten, by decide, rfl, rfl,
    schedule_default_marked_at_ten⟩
  · rw [schedule_marked, h]
    rfl
  · rw [List.map_map]
    apply List.map_congr_left
    intro x _
    obtain ⟨h1, -, h3, h4, -, h6, -⟩ := markedDone_fields sec key x
    simp only [Function.comp, h1, h3, h4, h6]
  · intro x hx hne
    unfold markedDone
    split
    · rename_i hm
      exact absurd (schedule_item_unique p today clock items x it sec key h hx hit hm.1 hm.2
        hsec hkey) hne
    · rfl
  · unfold markedDone
    rw [if_pos ⟨hsec, hkey⟩]
  · intro other t0 day sec0 hlen hne
    rw [schedule_other_key sec0 _ day today clock p
      (fun t => key_ne_of_date_ne today other t t0 hlen hne), h]

/-- C7 at the default plan on `2025-01-15`, `10:00`, marking the rinse slot
`"10:30"`. -/
theorem markDone_rederive_witness :
    schedule defaultPlan "2025-01-15" "10:00" = some scheduleAtTen ∧
    rinseAtTen ∈ scheduleAtTen ∧ rinseAtTen.«section» = some Section.rinse ∧
    rinseAtTen.doneKey = some "2025-01-15_10:30" ∧
    schedule (markDoneTimed Section.rinse "2025-01-15_10:30" "2025-01-15" defaultPlan)
        "2025-01-15" "10:00"
      = some (scheduleAtTen.map (markedDone Section.rinse "2025-01-15_10:30")) :=
  ⟨by decide, by decide, rfl, rfl,
    (markDone_rederive defaultPlan "2025-01-15" "10:00" scheduleAtTen rinseAtTen Section.rinse
      "2025-01-15_10:30" (by decide) (by decide) rfl rfl).1⟩

/-! ### Streak: claim C8 -/

theorem bumpStreak_idem (today : String) (p : Plan) :
    bumpStreak today (bumpStreak today p) = bumpStreak today p := by
  by_cases h : p.lastStreakDate = some today
  · simp [bumpStreak, h]
  · simp [bumpStreak, h]

/-- C8, as stated, fails: a plan with `streak = 2 ^ 53`, not yet bumped on
`2025-01-15`, keeps `streak = 2 ^ 53` after `bumpStreak`, since `2 ^ 53 + 1` is not
a double. -/
theorem bumpStreak_counterexample :
    ({ defaultPlan with streak := 9007199254740992 } : Plan).lastStreakDate
      ≠ some "2025-01-15" ∧
    (bumpStreak "2025-01-15" { defaultPlan with streak := 9007199254740992 }).streak
      = 9007199254740992 ∧
    (bumpStreak "2025-01-15" { defaultPlan with streak := 9007199254740992 }).streak
      ≠ ({ defaultPlan with streak := 9007199254740992 } : Plan).streak + 1 := by
  decide

/-- C8, amended: `bumpStreak` applied twice with the same `today` equals it
applied once; when `p.lastStreakDate` differs from `today` the result has
`lastStreakDate = today` and, provided `p.streak + 1` is below `2 ^ 53` in
magnitude, `streak = p.streak + 1`; when it equals `today` the plan is returned
unchanged; every field other than `streak` and `lastStreakDate` is unchanged. -/
theorem bumpStreak_spec (p : Plan) (today : String) :
    bumpStreak today (bumpStreak today p) = bumpStreak today p ∧
    (p.lastStreakDate ≠ some today →
      (bumpStreak today p).lastStreakDate = some today ∧
      (-9007199254740992 < p.streak + 1 → p.streak + 1 < 9007199254740992 →
        (bumpStreak today p).streak = p.streak + 1)) ∧
    (p.lastStreakDate = some today → bumpStreak today p = p) ∧
    (bumpStreak today p).friendName = p.friendName ∧
    (bumpStreak today p).characterName = p.characterName ∧
    (bumpStreak today p).paracetamol = p.paracetamol ∧
    (bumpStreak today p).ibuprofen = p.ibuprofen ∧
    (bumpStreak today p).rinse = p.rinse ∧
    (bumpStreak today p).corsodyl = p.corsodyl ∧
    (bumpStreak today p).lastNotifiedAtMinute = p.lastNotifiedAtMinute ∧
    (bumpStreak today p).introSeen = p.introSeen ∧
    (bumpStreak today p).darkMode = p.darkMode := by
  by_cases h : p.lastStreakDate = some today
  · have e : bumpStreak today p = p := by simp [bumpStreak, h]
    rw [e]
    exact ⟨e, fun hne => absurd h hne, fun _ => rfl, rfl, rfl, rfl, rfl, rfl, rfl, rfl, rfl,
      rfl⟩
  · have e : bumpStreak today p
        = { p with streak := jsAdd (if p.streak = 0 then 0 else p.streak) 1,
                   lastStreakDate := some today } := by
      simp [bumpStreak, h]
    have e0 : (if p.streak = 0 then 0 else p.streak) = p.streak := by
      split
      · rename_i h0
        exact h0.symm
      · rfl
    refine ⟨?_, fun _ => ⟨?_, fun h1 h2 => ?_⟩, fun heq => absurd heq h, ?_, ?_, ?_, ?_, ?_,
      ?_, ?_, ?_, ?_⟩
    · rw [e]
      simp [bumpStreak]
    all_goals rw [e]
    · simp only [e0, jsAdd]
      exact roundDouble_small _ h1 h2

/-- C8 amended, at the default plan (streak `0`, never bumped) on `2025-01-15`. -/
theorem bumpStreak_spec_witness :
    defaultPlan.lastStreakDate ≠ some "2025-01-15" ∧
    (bumpStreak "2025-01-15" defaultPlan).lastStreakDate = some "2025-01-15" ∧
    (bumpStreak "2025-01-15" defaultPlan).streak = defaultPlan.streak + 1 ∧
    bumpStreak "2025-01-15" (bumpStreak "2025-01-15" defaultPlan)
      = bumpStreak "2025-01-15" defaultPlan :=
  ⟨by decide,
    ((bumpStreak_spec defaultPlan "2025-01-15").2.1 (by decide)).1,
    ((bumpStreak_spec defaultPlan "2025-01-15").2.1 (by decide)).2 (by decide) (by decide),
    (bumpStreak_spec defaultPlan "2025-01-15").1⟩

/-! ### Marking done: claim C10 -/

theorem setDone_lastStreakDate (sec : Section) (key : String) (p : Plan) :
    (setDone sec key p).lastStreakDate = p.lastStreakDate := by
  cases sec <;> rfl

theorem bumpStreak_lastStreakDate (today : String) (p : Plan) :
    (bumpStreak today p).lastStreakDate = some today := by
  unfold bumpStreak
  split
  · assumption
  · rfl

theorem setDone_setDone (sec : Section) (key : String) (p : Plan) :
    setDone sec key (setDone sec key p) = setDone sec key p := by
  cases sec <;>
  · simp only [setDone, Plan.task, Option.getD_some]
    congr 3
    funext k
    split <;> rfl

theorem setDone_bumpStreak (sec : Section) (key today : String) (p : Plan) :
    setDone sec key (bumpStreak today p) = bumpStreak today (setDone sec key p) := by
  unfold bumpStreak
  rw [setDone_lastStreakDate]
  split
  · rfl
  · cases sec <;> rfl

/-- C10: for every plan, section, key and date, `markDoneTimed` stores `true`
under the key in the done-map of the section, keeps every other entry of that
map, keeps `times` and `enabled` of the section, the other section and both
medications, and performing it again on the same date gives the same plan. -/
theorem markDoneTimed_spec (p : Plan) (sec : Section) (doneKey today : String) :
    (∃ d, ((markDoneTimed sec doneKey today p).task sec).done = some d ∧
      d doneKey = some true ∧
      ∀ k, k ≠ doneKey → d k = ((p.task sec).done.getD (fun _ => none)) k) ∧
    ((markDoneTimed sec doneKey today p).task sec).times = (p.task sec).times ∧
    ((markDoneTimed sec doneKey today p).task sec).enabled = (p.task sec).enabled ∧
    (∀ sec', sec' ≠ sec → (markDoneTimed sec doneKey today p).task sec' = p.task sec') ∧
    (markDoneTimed sec doneKey today p).paracetamol = p.paracetamol ∧
    (markDoneTimed sec doneKey today p).ibuprofen = p.ibuprofen ∧
    markDoneTimed sec doneKey today (markDoneTimed sec doneKey today p)
      = markDoneTimed sec doneKey today p := by
  refine ⟨?_, ?_, ?_, ?_, markDoneTimed_paracetamol sec doneKey today p,
    markDoneTimed_ibuprofen sec doneKey today p, ?_⟩
  · rw [markDoneTimed_task, if_pos rfl]
    refine ⟨_, rfl, by simp, ?_⟩
    intro k hk
    simp [hk]
  · exact (markDoneTimed_enabled_times sec sec doneKey today p).2
  · exact (markDoneTimed_enabled_times sec sec doneKey today p).1
  · intro sec' hne
    rw [markDoneTimed_task, if_neg hne]
  · unfold markDoneTimed
    rw [setDone_bumpStreak, setDone_setDone, bumpStreak_idem]

/-! ### Notification dispatcher: claim C9 -/

theorem notifyStep_cases (p : Plan) (sched : List Item) (today clock : String) :
    notifyStep p sched today clock = (p, []) ∨
    ∃ n, notifyStep p sched today clock
        = ({ p with lastNotifiedAtMinute := some (stampOf today clock) }, [n]) ∧
      p.lastNotifiedAtMinute ≠ some (stampOf today clock) ∧
      ∃ due ∈ sched, due.mins = 0 := by
  unfold notifyStep
  cases hf : sched.find? (fun x => x.mins == 0) with
  | none => exact Or.inl rfl
  | some due =>
    by_cases hl : p.lastNotifiedAtMinute = some (stampOf today clock)
    · left
      simp [hl]
    · right
      refine ⟨{ title := p.characterName ++ " 🦷", body := due.title ++ " TIME! TAP DONE ✅" },
        by simp [hl], hl, due, List.mem_of_find?_eq_some hf, ?_⟩
      have := List.find?_some hf
      simpa using this

theorem notifyStep_same_stamp (p : Plan) (sched : List Item) (today clock : String)
    (h : p.lastNotifiedAtMinute = some (stampOf today clock)) :
    notifyStep p sched today clock = (p, []) := by
  rcases notifyStep_cases p sched today clock with e | ⟨n, -, hne, -⟩
  · exact e
  · exact absurd h hne

/-- The log of a sequence is the log of its first step followed by the log of the
rest. -/
theorem runNotify_cons (p : Plan) (r : Recompute) (rest : List Recompute) :
    (runNotify p (r :: rest)).2
      = (notifyStep p r.sched r.today r.clock).2.map (fun n => (stampOf r.today r.clock, n))
        ++ (runNotify (notifyStep p r.sched r.today r.clock).1 rest).2 := rfl

theorem runNotify_stamps_mem (rs : List Recompute) :
    ∀ (p : Plan) (s : String), s ∈ (runNotify p rs).2.map Prod.fst →
      s ∈ rs.map (fun r => stampOf r.today r.clock) := by
  induction rs with
  | nil =>
    intro p s hs
    simp [runNotify] at hs
  | cons r rest ih =>
    intro p s hs
    rw [runNotify_cons, List.map_append, List.mem_append] at hs
    rcases hs with hs | hs
    · simp only [List.map_map, List.mem_map, Function.comp] at hs
      obtain ⟨n, -, rfl⟩ := hs
      simp
    · exact List.mem_cons_of_mem _ (ih _ s hs)

theorem runNotify_after_stamp (rs : List Recompute) :
    ∀ (p : Plan) (s : String), p.lastNotifiedAtMinute = some s →
      stampsConsecutive (s :: rs.map (fun r => stampOf r.today r.clock)) = true →
      s ∉ (runNotify p rs).2.map Prod.fst := by
  induction rs with
  | nil =>
    intro p s _ _
    simp [runNotify]
  | cons r rest ih =>
    intro p s hp hcons
    by_cases ht : stampOf r.today r.clock = s
    · have hstep := notifyStep_same_stamp p r.sched r.today r.clock (by rw [hp, ht])
      rw [runNotify_cons, hstep]
      simp only [List.map_nil, List.nil_append]
      apply ih p s hp
      rw [List.map_cons, stampsConsecutive, Bool.and_eq_true, ht] at hcons
      exact hcons.2
    · intro hmem
      have hin := runNotify_stamps_mem (r :: rest) p s hmem
      simp only [List.map_cons, stampsConsecutive, Bool.and_eq_true, Bool.not_eq_true',
        List.dropWhile_cons, beq_iff_eq, ht, if_false] at hcons
      have hnot := hcons.1
      rw [List.contains_eq_any_beq, List.any_eq_false] at hnot
      simp only [List.map_cons, List.mem_cons] at hin
      rcases hin with e | hin
      · exact ht e.symm
      · have := hnot s (List.mem_cons_of_mem _ hin)
        simp at this

theorem runNotify_count_le_one (rs : List Recompute) :
    ∀ (p : Plan) (s : String),
      stampsConsecutive (rs.map (fun r => stampOf r.today r.clock)) = true →
      ((runNotify p rs).2.map Prod.fst).count s ≤ 1 := by
  induction rs with
  | nil =>
    intro p s _
    simp [runNotify]
  | cons r rest ih =>
    intro p s hcons
    have htail : stampsConsecutive (rest.map (fun r => stampOf r.today r.clock)) = true := by
      simp only [List.map_cons, stampsConsecutive, Bool.and_eq_true] at hcons
      exact hcons.2
    rw [runNotify_cons]
    rcases notifyStep_cases p r.sched r.today r.clock with e | ⟨n, e, -, -⟩
    · rw [e]
      simp only [List.map_nil, List.nil_append]
      exact ih p s htail
    · rw [e]
      simp only [List.map_cons, List.map_nil, List.singleton_append, List.count_cons]
      by_cases ht : stampOf r.today r.clock = s
      · have h0 := runNotify_after_stamp rest
          { p with lastNotifiedAtMinute := some (stampOf r.today r.clock) } s
          (by rw [ht]) (by rw [← ht]; exact hcons)
        rw [List.count_eq_zero_of_not_mem h0]
        split <;> omega
      · have := ih { p with lastNotifiedAtMinute := some (stampOf r.today r.clock) } s htail
        simp only [beq_iff_eq, ht, if_false, add_zero]
        exact this

theorem stampsConsecutive_of_same (s : String) (l : List String) (h : ∀ t ∈ l, t = s) :
    stampsConsecutive l = true := by
  induction l with
  | nil => rfl
  | cons t ts ih =>
    have ht : t = s := h t (List.mem_cons_self _ _)
    have hts : ∀ u ∈ ts, u = s := fun u hu => h u (List.mem_cons_of_mem _ hu)
    subst ht
    have hd : ts.dropWhile (fun u => u == t) = [] := by
      rw [List.dropWhile_eq_nil_iff]
      intro u hu
      simp [hts u hu]
    simp [stampsConsecutive, hd, ih hts]

/-- C9, as stated, fails: with an item due at each recompute and the stamps
`2025-01-15_08:00`, `2025-01-15_08:01`, `2025-01-15_08:00` in this order, two
notifications are sent for the stamp `2025-01-15_08:00`. -/
theorem notify_counterexample :
    ((runNotify defaultPlan
        [dueRecompute "2025-01-15" "08:00", dueRecompute "2025-01-15" "08:01",
          dueRecompute "2025-01-15" "08:00"]).2.map Prod.fst)
      = ["2025-01-15_08:00", "2025-01-15_08:01", "2025-01-15_08:00"] ∧
    ((runNotify defaultPlan
        [dueRecompute "2025-01-15" "08:00", dueRecompute "2025-01-15" "08:01",
          dueRecompute "2025-01-15" "08:00"]).2.map Prod.fst).count "2025-01-15_08:00" = 2 := by
  decide

/-- C9, amended: a step of the dispatcher sends a notification exactly when the
schedule has an item with `mins = 0` and the stamp differs from
`lastNotifiedAtMinute`, it then stores the stamp, and otherwise keeps the plan;
a step sends at most one notification; recomputes that all carry one stamp send
at most one notification in total; and over a sequence of recomputes in which
equal stamps are consecutive at most one notification is sent per stamp. -/
theorem notify_once_per_stamp (p : Plan) (rs : List Recompute) :
    (∀ (sched : List Item) (today clock : String),
      ((notifyStep p sched today clock).2 ≠ [] ↔
        (∃ due ∈ sched, due.mins = 0) ∧
          p.lastNotifiedAtMinute ≠ some (stampOf today clock)) ∧
      ((notifyStep p sched today clock).2 ≠ [] →
        (notifyStep p sched today clock).1
          = { p with lastNotifiedAtMinute := some (stampOf today clock) }) ∧
      ((notifyStep p sched today clock).2 = [] → (notifyStep p sched today clock).1 = p) ∧
      (notifyStep p sched today clock).2.length ≤ 1) ∧
    (∀ s : String, (∀ r ∈ rs, stampOf r.today r.clock = s) →
      (runNotify p rs).2.length ≤ 1) ∧
    (stampsConsecutive (rs.map (fun r => stampOf r.today r.clock)) = true →
      ∀ s : String, ((runNotify p rs).2.map Prod.fst).count s ≤ 1) := by
  refine ⟨?_, ?_, ?_⟩
  · intro sched today clock
    rcases notifyStep_cases p sched today clock with e | ⟨n, e, hne, hdue⟩
    · rw [e]
      refine ⟨⟨fun h => absurd rfl h, ?_⟩, fun h => absurd rfl h, fun _ => rfl, by simp⟩
      rintro ⟨⟨due, hmem, hz⟩, hne⟩
      exfalso
      unfold notifyStep at e
      cases hf : sched.find? (fun x => x.mins == 0) with
      | none =>
        rw [List.find?_eq_none] at hf
        have := hf due hmem
        simp [hz] at this
      | some d =>
        simp only [hf, hne, if_false, Prod.mk.injEq] at e
        simp at e
    · rw [e]
      exact ⟨⟨fun _ => ⟨hdue, hne⟩, fun _ => by simp⟩, fun _ => rfl, fun h => by simp at h,
        by simp⟩
  · intro s hs
    have hc : stampsConsecutive (rs.map (fun r => stampOf r.today r.clock)) = true :=
      stampsConsecutive_of_same s _ (by
        intro t ht
        obtain ⟨r, hr, rfl⟩ := List.mem_map.1 ht
        exact hs r hr)
    have h1 := runNotify_count_le_one rs p s hc
    have h2 : ((runNotify p rs).2.map Prod.fst).count s
        = ((runNotify p rs).2.map Prod.fst).length := by
      rw [List.count_eq_length]
      intro t ht
      have := runNotify_stamps_mem rs p t ht
      obtain ⟨r, hr, rfl⟩ := List.mem_map.1 this
      exact (hs r hr).symm
    rw [h2, List.length_map] at h1
    exact h1
  · intro hc s
    exact runNotify_count_le_one rs p s hc

/-- C9 amended, at the default plan and four recomputes with an item due, three at
`08:00` and one at `08:01`. -/
theorem notify_once_per_stamp_witness :
    stampsConsecutive
      ([dueRecompute "2025-01-15" "08:00", dueRecompute "2025-01-15" "08:00",
        dueRecompute "2025-01-15" "08:00", dueRecompute "2025-01-15" "08:01"].map
          (fun r => stampOf r.today r.clock)) = true ∧
    ∀ s : String, ((runNotify defaultPlan
      [dueRecompute "2025-01-15" "08:00", dueRecompute "2025-01-15" "08:00",
        dueRecompute "2025-01-15" "08:00", dueRecompute "2025-01-15" "08:01"]).2.map
          Prod.fst).count s ≤ 1 :=
  ⟨by decide,
    (notify_once_per_stamp defaultPlan
      [dueRecompute "2025-01-15" "08:00", dueRecompute "2025-01-15" "08:00",
        dueRecompute "2025-01-15" "08:00", dueRecompute "2025-01-15" "08:01"]).2.2
      (by decide)⟩

/-! ### The iteration cap: claim C11 -/

/-- With an exactly representable step `e`, of any sign, the loop performs
`j ≤ remaining` iterations, each advancing the candidate by `e` minutes, and
leaves either at the cap or with its condition false. -/
theorem searchLoop_capped (c e : Int) (hc0 : 0 ≤ c) (hc1 : c < 1440)
    (he : -9007199254739552 ≤ e) :
    ∀ (f : Nat) (v : Int) (g : Nat), 0 ≤ v → v < 1440 →
      ∃ j : Nat, j ≤ f ∧
        searchLoop (hhmmOfMinute c) e f (hhmmOfMinute v) g
          = some (hhmmOfMinute ((v + j * e) % 1440), g + j) ∧
        (j = f ∨ (v + j * e - c) % 1440 ≤ e) := by
  intro f
  induction f with
  | zero =>
    intro v g hv0 hv1
    refine ⟨0, le_refl _, ?_, Or.inl rfl⟩
    rw [searchLoop_zero]
    simp [Int.emod_eq_of_lt hv0 hv1]
  | succ n ih =>
    intro v g hv0 hv1
    rcases le_or_lt ((v - c) % 1440) e with hw | hw
    · refine ⟨0, Nat.zero_le _, ?_, Or.inr ?_⟩
      · rw [searchLoop_stop c e v _ g hc0 hc1 hv0 hv1 hw]
        simp [Int.emod_eq_of_lt hv0 hv1]
      · simpa using hw
    · have he2 : e < 1440 := by omega
      have ev : jsAdd v e = v + e := roundDouble_small _ (by omega) (by omega)
      obtain ⟨j, hj, hrun, hexit⟩ := ih ((v + e) % 1440) (g + 1) (by omega) (by omega)
      have hmul : ((j : Int) + 1) * e = j * e + e := by ring
      refine ⟨j + 1, by omega, ?_, ?_⟩
      · rw [searchLoop_step c e v n g hc0 hc1 hv0 hv1 hw, ev, hrun]
        push_cast
        rw [hmul]
        congr 2
        · congr 1
          omega
        · omega
      · rcases hexit with h1 | h1
        · left
          omega
        · right
          push_cast
          rw [hmul]
          have : ((v + e) % 1440 + j * e - c) % 1440 = (v + (j * e + e) - c) % 1440 := by
            omega
          rw [← this]
          exact h1

/-- C11, as stated, fails: at `everyHours = -2 ^ 53`, start `"00:01"`, current time
`"00:00"` the product `everyHours * 60` is exact, but the sums `candidate + everyMin`
round; the loop runs its `50` iterations and returns `"08:00"`, minute `480` of the
day, while `(1 + 50 * everyHours * 60) mod 1440` is `481` and no `k ≤ 50` gives
`480`. -/
theorem nextDose_cap_counterexample :
    validHHMM "00:01" = true ∧ validHHMM "00:00" = true ∧ minuteOfDay "00:01" = some 1 ∧
    jsMul (-9007199254740992) 60 = -9007199254740992 * 60 ∧
    searchLoop "00:00" (jsMul (-9007199254740992) 60) 50 "00:01" 0 = some ("08:00", 50) ∧
    nextDoseEveryHours "00:00" "00:01" (-9007199254740992) none
      = some { next := "08:00", mins := 480 } ∧
    minuteOfDay "08:00" = some 480 ∧
    (1 + 50 * ((-9007199254740992 : Int) * 60)) % 1440 = 481 ∧
    ∀ k : Nat, k ≤ 50 → (1 + (k : Int) * ((-9007199254740992 : Int) * 60)) % 1440 ≠ 480 := by
  decide

/-- C11, amended: for every integer `everyHours` with
`everyHours * 60 ≥ -(2 ^ 53 - 1440)` (zero, every positive value, and the negative
values down to that bound) and valid start and current times, with `lastTaken`
unset, the loop of `nextDoseEveryHours` ends after `k ≤ 50` iterations, at the cap
or with its condition false, and a result is returned: `next` is the well-formed
print of `(start + k * everyHours * 60) mod 1440` and
`mins = minutesBetween clock next`; for `everyHours = 0` the result is
`next = start`. -/
theorem nextDose_search_capped (clock start : String) (everyHours : Int)
    (hc : validHHMM clock = true) (hs : validHHMM start = true)
    (hb : -9007199254739552 ≤ everyHours * 60) :
    ∃ (k : Nat) (s : Int) (d : Dose), k ≤ 50 ∧ minuteOfDay start = some s ∧
      searchLoop clock (jsMul everyHours 60) 50 start 0 = some (d.next, k) ∧
      (k = 50 ∨ ¬ (d.mins > jsMul everyHours 60)) ∧
      nextDoseEveryHours clock start everyHours none = some d ∧
      validHHMM d.next = true ∧
      minuteOfDay d.next = some ((s + k * (everyHours * 60)) % 1440) ∧
      minutesBetween clock d.next = some d.mins ∧
      (everyHours = 0 → d.next = start) := by
  obtain ⟨c, hc0, hc1, rfl⟩ := validHHMM_eq_int clock hc
  obtain ⟨s, hs0, hs1, rfl⟩ := validHHMM_eq_int start hs
  rcases lt_or_le (everyHours * 60) 1440 with h1 | h1
  · have he : jsMul everyHours 60 = everyHours * 60 :=
      roundDouble_small _ (by omega) (by omega)
    obtain ⟨j, hj, hrun, hexit⟩ :=
      searchLoop_capped c (everyHours * 60) hc0 hc1 hb 50 s 0 hs0 hs1
    have hm0 : 0 ≤ (s + j * (everyHours * 60)) % 1440 := by omega
    have hm1 : (s + j * (everyHours * 60)) % 1440 < 1440 := by omega
    have hrun2 : searchLoop (hhmmOfMinute c) (jsMul everyHours 60) 50 (hhmmOfMinute s) 0
        = some (hhmmOfMinute ((s + j * (everyHours * 60)) % 1440), j) := by
      rw [he]
      simpa using hrun
    refine ⟨j, s, Dose.mk (hhmmOfMinute ((s + j * (everyHours * 60)) % 1440))
        (((s + j * (everyHours * 60)) % 1440 - c) % 1440), hj,
      minuteOfDay_hhmmOfMinute s hs0 hs1, hrun2, ?_,
      nextDose_of_searchLoop c _ _ everyHours j hc0 hc1 hm0 hm1 hrun2,
      validHHMM_hhmmOfMinute_int _ hm0 hm1, minuteOfDay_hhmmOfMinute _ hm0 hm1,
      minutesBetween_hhmmOfMinute c _ hc0 hc1 hm0 hm1, ?_⟩
    · rcases hexit with h2 | h2
      · exact Or.inl h2
      · right
        rw [he]
        simp only [gt_iff_lt, not_lt]
        omega
    · intro h0
      subst h0
      simp [Int.emod_eq_of_lt hs0 hs1]
  · have he : 1440 ≤ jsMul everyHours 60 :=
      roundDouble_ge_of_ge _ 1440 (by omega) (by omega) h1
    have hrun : searchLoop (hhmmOfMinute c) (jsMul everyHours 60) 50 (hhmmOfMinute s) 0
        = some (hhmmOfMinute s, 0) :=
      searchLoop_stop c _ s 50 0 hc0 hc1 hs0 hs1 (by omega)
    refine ⟨0, s, Dose.mk (hhmmOfMinute s) ((s - c) % 1440), by omega,
      minuteOfDay_hhmmOfMinute s hs0 hs1, hrun, ?_,
      nextDose_of_searchLoop c s _ everyHours 0 hc0 hc1 hs0 hs1 hrun,
      validHHMM_hhmmOfMinute_int s hs0 hs1, ?_,
      minutesBetween_hhmmOfMinute c s hc0 hc1 hs0 hs1, fun _ => rfl⟩
    · right
      simp only [gt_iff_lt, not_lt]
      omega
    · rw [minuteOfDay_hhmmOfMinute s hs0 hs1]
      simp [Int.emod_eq_of_lt hs0 hs1]

/-- C11 amended, at `everyHours = 0`, start `"08:00"`, current time `"10:00"`: the
loop runs to the cap and returns the start. -/
theorem nextDose_search_capped_witness :
    validHHMM "10:00" = true ∧ validHHMM "08:00" = true ∧
    (-9007199254739552 : Int) ≤ 0 * 60 ∧
    searchLoop "10:00" (jsMul 0 60) 50 "08:00" 0 = some ("08:00", 50) ∧
    nextDoseEveryHours "10:00" "08:00" 0 none = some { next := "08:00", mins := 1320 } ∧
    ∃ (k : Nat) (s : Int) (d : Dose), k ≤ 50 ∧ minuteOfDay "08:00" = some s ∧
      searchLoop "10:00" (jsMul 0 60) 50 "08:00" 0 = some (d.next, k) ∧
      (k = 50 ∨ ¬ (d.mins > jsMul 0 60)) ∧
      nextDoseEveryHours "10:00" "08:00" 0 none = some d ∧
      validHHMM d.next = true ∧
      minuteOfDay d.next = some ((s + k * (0 * 60)) % 1440) ∧
      minutesBetween "10:00" d.next = some d.mins ∧
      ((0 : Int) = 0 → d.next = "08:00") :=
  ⟨by decide, by decide, by decide, by decide, by decide,
    nextDose_search_capped "10:00" "08:00" 0 (by decide) (by decide) (by decide)⟩

end ToothReminder
